import Mathlib

/-!
Verification development for the 3D multi-pipe routing engine.

The embedding below follows the Python sources:
  src/environment/environment.py    (Environment: grid, occupation map, mark/unmark)
  src/environment/obstacle-py.py    (Obstacle: cuboid cells)
  src/core/pipe.py                  (Pipe: path, cost model)
  src/core/plan.py                  (Plan: quality, lexicographic comparison)
  src/core/constraint-py.py         (ConstraintSet: DFS cycle check)
  src/core/conflict.py              (Conflict: canonicalized pair)
  src/evaluation/conflict-manager-py.py (ConflictManager: cell-intersection detector)
  src/algorithms/low_level/astar-solver-py.py (AStarSolver: best-first search)
  src/algorithms/high_level/pbs-py.py  (PBS: conflict-tree DFS, branching)
  src/algorithms/high_level/pbs.py     (alternative PBS: vertex-distance detector)
  src/algorithms/high_level/fix_order.py (FixOrder baseline)

Modelling conventions:
  - Points are integer voxel triples; the grid resolution is taken as 1.0 (the
    loader's default), under which `_point_to_cell` and `_cell_to_point` are the
    identity on integer points.
  - Python floats are idealized as rationals.  The per-step distance
    `((dx^2+dy^2+dz^2) ** 0.5)` is embedded as `Rat.sqrt` of the squared
    distance; every step the search or the cost routine ever measures is a unit
    axis step, whose squared distance is 1, where `Rat.sqrt` is exact.
    The vertex-pair distance test of `pbs.py` compares a genuine square root and
    is embedded over the reals.
  - Python dicts/sets are embedded as association lists / lists; the per-cell
    writes they receive are independent of iteration order and multiplicity.
  - Wall-clock timeouts are embedded as fuel: the search checks the clock once
    per iteration and returns `none` when it expires, exactly as the fuel-0 case
    does here.
-/

set_option maxHeartbeats 1000000

unseal Rat.add Rat.mul Rat.inv Rat.sub

namespace PipeRouting

/-- Integer voxel coordinates (x, y, z). -/
abbrev Pt := ℤ × ℤ × ℤ

/-- Squared euclidean distance between two voxel points. -/
def distSq (p q : Pt) : ℤ :=
  (p.1 - q.1) ^ 2 + (p.2.1 - q.2.1) ^ 2 + (p.2.2 - q.2.2) ^ 2

/-- Manhattan distance, the heuristic `_heuristic` of the A* solver. -/
def manhattan (p q : Pt) : ℤ :=
  |p.1 - q.1| + |p.2.1 - q.2.1| + |p.2.2 - q.2.2|

/-- Embeds `AStarSolver._calculate_distance` (and the per-step distance of
`Pipe._calculate_cost`): the euclidean distance `sqrt(dx^2+dy^2+dz^2)`.
Every pair these routines are ever applied to is a unit axis step, where the
squared distance is `1` and `Rat.sqrt` returns the exact value `1`;
the Python source computes a floating-point square root. -/
def calcDistance (p q : Pt) : ℚ :=
  Rat.sqrt (distSq p q : ℚ)

/-- The three coordinate axes, the values of `_get_direction`. -/
inductive Axis | x | y | z
deriving DecidableEq, Repr

/-- Embeds `_get_direction` (identical in `pipe.py` and `astar-solver-py.py`):
the axis along which two points differ, testing x, then y, then z. -/
def getDirection (p q : Pt) : Option Axis :=
  if p.1 ≠ q.1 then some .x
  else if p.2.1 ≠ q.2.1 then some .y
  else if p.2.2 ≠ q.2.2 then some .z
  else none

/-- State of one voxel of the occupancy grid: 0 = free, 1 = obstacle, 2 = pipe. -/
inductive CellState | free | obstacle | pipe
deriving DecidableEq, Repr

/-- The 3D environment: bounds, dense occupancy grid and pipe-owner map
(`Environment.grid` and `Environment.occupation_map`).  The obstacle list kept
by the source is diagnostic only and not part of the occupancy state the claims
speak about. -/
structure Env where
  size : Pt
  grid : Pt → CellState
  occ : Pt → Option ℕ

/-- Embeds `Environment._is_valid_cell`. -/
def isValidCell (size : Pt) (c : Pt) : Bool :=
  decide (0 ≤ c.1) && decide (c.1 < size.1) &&
  decide (0 ≤ c.2.1) && decide (c.2.1 < size.2.1) &&
  decide (0 ≤ c.2.2) && decide (c.2.2 < size.2.2)

/-- Embeds `Environment.is_free`: in bounds and the grid cell is 0. -/
def isFree (e : Env) (p : Pt) : Bool :=
  isValidCell e.size p && decide (e.grid p = .free)

/-- Embeds `Environment.get_neighbors`: the in-bounds cells one unit step away
along ±x, ±y, ±z, in the source's direction order. -/
def getNeighbors (e : Env) (p : Pt) : List Pt :=
  ([(1, 0, 0), (-1, 0, 0), (0, 1, 0), (0, -1, 0), (0, 0, 1), (0, 0, -1)] : List Pt).filterMap
    (fun d =>
      let c : Pt := (p.1 + d.1, p.2.1 + d.2.1, p.2.2 + d.2.2)
      if isValidCell e.size c then some c else none)

/-- An axis-aligned cuboidal obstacle (`Obstacle`), corners inclusive. -/
structure Obstacle where
  minCorner : Pt
  maxCorner : Pt
deriving DecidableEq

/-- The integers from `a` to `b` inclusive (`range(a, b + 1)`). -/
def intRange (a b : ℤ) : List ℤ :=
  (List.range (b + 1 - a).toNat).map (fun i => a + (i : ℤ))

/-- Embeds `Obstacle.get_occupied_cells` at resolution 1: all voxels of the
inclusive cuboid. -/
def obstacleCells (o : Obstacle) : List Pt :=
  (intRange o.minCorner.1 o.maxCorner.1).flatMap (fun x =>
    (intRange o.minCorner.2.1 o.maxCorner.2.1).flatMap (fun y =>
      (intRange o.minCorner.2.2 o.maxCorner.2.2).map (fun z => ((x, y, z) : Pt))))

/-- Embeds `Environment.add_obstacle`: each valid cell of the cuboid is set to
the obstacle state. -/
def addObstacle (e : Env) (o : Obstacle) : Env :=
  (obstacleCells o).foldl
    (fun e c =>
      if isValidCell e.size c then { e with grid := Function.update e.grid c .obstacle }
      else e) e

/-- A pipe (`Pipe`): identity, endpoints, diameter (idealized as a rational),
and the mutable path/cost attributes set by `set_path`. -/
structure Pipe where
  id : ℕ
  start : Pt
  goal : Pt
  diameter : ℚ
  path : Option (List Pt) := none
  cost : Option (WithTop ℚ) := none
  length : Option ℚ := none
  numBends : Option ℕ := none
deriving DecidableEq

instance : Inhabited Pipe := ⟨⟨0, (0, 0, 0), (0, 0, 0), 0, none, none, none, none⟩⟩

/-- Embeds `Pipe.has_path`. -/
def Pipe.hasPath (p : Pipe) : Bool := p.path.isSome

/-- Embeds `Pipe.get_occupied_cells`: the set of path points (as a list; only
membership matters everywhere the source uses the set). -/
def getOccupiedCells (p : Pipe) : List Pt := p.path.getD []

/-- Embeds the length loop of `Pipe._calculate_cost`: the sum of per-step
euclidean distances over consecutive path points. -/
def pathLength (path : List Pt) : ℚ :=
  (path.zip path.tail).foldl (fun acc pq => acc + calcDistance pq.1 pq.2) 0

/-- Embeds `Pipe._count_bends`: the number of interior vertices where the
incoming and outgoing axes differ. -/
def countBends (path : List Pt) : ℕ :=
  if path.length < 3 then 0
  else
    ((List.range (path.length - 2)).filter (fun i =>
      getDirection (path.getD i default) (path.getD (i + 1) default) ≠
      getDirection (path.getD (i + 1) default) (path.getD (i + 2) default))).length

/-- Embeds `Pipe._calculate_height_penalty`: 10 * average z * bend count. -/
def heightPenalty (path : List Pt) (bends : ℕ) : ℚ :=
  10 * ((path.map (fun p => (p.2.2 : ℚ))).sum / (path.length : ℚ)) * (bends : ℚ)

/-- Embeds `Pipe.set_path` together with `Pipe._calculate_cost`:
clearing the path clears the derived attributes; a path with fewer than two
vertices gets cost infinity and leaves length and bend count untouched;
otherwise length, bends and the weighted cost are computed. -/
def setPath (p : Pipe) (path : Option (List Pt)) : Pipe :=
  match path with
  | none => { p with path := none, cost := none, length := none, numBends := none }
  | some pa =>
    if pa.length < 2 then { p with path := some pa, cost := some ⊤ }
    else
      let len := pathLength pa
      let bends := countBends pa
      { p with
        path := some pa
        length := some len
        numBends := some bends
        cost := some ((len * p.diameter + 100 * (bends : ℚ) + heightPenalty pa bends : ℚ) : WithTop ℚ) }

/-- Embeds the body of `Environment.mark_pipe_path` for one cell: a valid cell
is written to the pipe state and the owner map records the pipe id. -/
def markCell (pid : ℕ) (e : Env) (c : Pt) : Env :=
  if isValidCell e.size c then
    { e with grid := Function.update e.grid c .pipe, occ := Function.update e.occ c (some pid) }
  else e

/-- Embeds `Environment.mark_pipe_path`. -/
def markPipePath (e : Env) (p : Pipe) : Env :=
  match p.path with
  | none => e
  | some _ => (getOccupiedCells p).foldl (markCell p.id) e

/-- Embeds the body of `Environment.unmark_pipe_path` for one cell: a cell the
pipe currently owns is reset to free and removed from the owner map. -/
def unmarkCell (pid : ℕ) (e : Env) (c : Pt) : Env :=
  if e.occ c = some pid then
    { e with grid := Function.update e.grid c .free, occ := Function.update e.occ c none }
  else e

/-- Embeds `Environment.unmark_pipe_path`. -/
def unmarkPipePath (e : Env) (p : Pipe) : Env :=
  match p.path with
  | none => e
  | some _ => (getOccupiedCells p).foldl (unmarkCell p.id) e

/-- The marking loop at the top of `AStarSolver.solve`. -/
def markAll (e : Env) (ps : List Pipe) : Env := ps.foldl markPipePath e

/-- The unmarking loop in the `finally` block of `AStarSolver.solve`. -/
def unmarkAll (e : Env) (ps : List Pipe) : Env := ps.foldl unmarkPipePath e

/-- A plan (`Plan`): the list of all pipes, identified by position. -/
structure Plan where
  pipes : List Pipe
deriving DecidableEq

/-- Embeds `Plan.get_pipe`: positional lookup (valid ids are in range). -/
def getPipe (pl : Plan) (i : ℕ) : Pipe := pl.pipes.getD i default

/-- Embeds `Plan.get_routed_pipes`. -/
def getRoutedPipes (pl : Plan) : List Pipe := pl.pipes.filter (fun p => p.path.isSome)

/-- Embeds `Plan.num_missing`: the number of pipes without a path. -/
def numMissing (pl : Plan) : ℕ := (pl.pipes.filter (fun p => !p.path.isSome)).length

/-- Cost lookup used when summing routed pipes: every routed pipe carries a
cost computed by `set_path`; an absent value is totalized to infinity. -/
def pipeCost (p : Pipe) : WithTop ℚ := p.cost.getD ⊤

/-- Embeds `Plan.total_cost`: infinity when nothing is routed, otherwise the
sum of the routed pipes' costs. -/
def totalCost (pl : Plan) : WithTop ℚ :=
  if (getRoutedPipes pl).isEmpty then ⊤
  else ((getRoutedPipes pl).map pipeCost).sum

/-- Embeds `Plan.get_quality`: the tuple (num_missing, total_cost). -/
def quality (pl : Plan) : ℕ × WithTop ℚ := (numMissing pl, totalCost pl)

/-- Embeds `Plan.is_better_than`: true against `None`; otherwise fewer missing
pipes wins, and on a tie the smaller total cost wins. -/
def isBetterThan (pl : Plan) (other : Option Plan) : Bool :=
  match other with
  | none => true
  | some o =>
    if (quality pl).1 < (quality o).1 then true
    else if (quality pl).1 > (quality o).1 then false
    else decide ((quality pl).2 < (quality o).2)

/-- In-place mutation of one pipe's path inside a plan
(`plan.get_pipe(i).set_path(path)` on a freshly copied plan). -/
def planSetPath (pl : Plan) (i : ℕ) (path : Option (List Pt)) : Plan :=
  ⟨pl.pipes.set i (setPath (getPipe pl i) path)⟩

/-- A conflict (`Conflict`): canonicalized unordered pair of pipe ids. -/
structure Conflict where
  pipe1 : ℕ
  pipe2 : ℕ
deriving DecidableEq

/-- Embeds the `Conflict` constructor: the smaller id is stored first. -/
def mkConflict (a b : ℕ) : Conflict := if a < b then ⟨a, b⟩ else ⟨b, a⟩

/-- Embeds `ConflictManager._check_collision`: false unless both pipes have a
path, otherwise true iff the occupied-cell sets intersect. -/
def checkCollision (p1 p2 : Pipe) : Bool :=
  if p1.path.isNone || p2.path.isNone then false
  else (getOccupiedCells p1).any (fun c => decide (c ∈ getOccupiedCells p2))

/-- All ordered pairs (i, j) with i before j of a list, in the nested-loop
order of `ConflictManager.find_all_conflicts`. -/
def pairsOf : List Pipe → List (Pipe × Pipe)
  | [] => []
  | p :: rest => rest.map (fun q => (p, q)) ++ pairsOf rest

/-- Embeds `ConflictManager.find_all_conflicts`. -/
def findAllConflicts (pl : Plan) : List Conflict :=
  ((pairsOf (getRoutedPipes pl)).filter (fun pq => checkCollision pq.1 pq.2)).map
    (fun pq => mkConflict pq.1.id pq.2.id)

/-- Embeds `ConflictManager.has_conflicts`. -/
def hasConflicts (pl : Plan) : Bool := !(findAllConflicts pl).isEmpty

/-- The vertex-pair interference predicate inside `PBS._get_first_conflict` of
`pbs.py`: some vertex of each path lies at euclidean distance strictly below
`(d1 + d2) / 2`.  The source compares `np.linalg.norm(pt1 - pt2)` with the
safe distance; the norm is embedded as the real square root of the integer
squared distance. -/
def pbsCloseVerts (d1 d2 : ℚ) (path1 path2 : List Pt) : Prop :=
  ∃ a ∈ path1, ∃ b ∈ path2, Real.sqrt ((distSq a b : ℤ) : ℝ) < (((d1 + d2) / 2 : ℚ) : ℝ)

/-- Decidable form of `pbsCloseVerts` obtained by squaring both sides (both are
nonnegative once the diameters are positive). -/
def pbsCloseVertsB (d1 d2 : ℚ) (path1 path2 : List Pt) : Bool :=
  path1.any (fun a => path2.any (fun b => decide ((distSq a b : ℚ) < ((d1 + d2) / 2) ^ 2)))

/-- A priority constraint (`Constraint`): `higher` is routed before `lower`. -/
structure Constraint where
  higher : ℕ
  lower : ℕ
deriving DecidableEq

/-- A constraint set is embedded as a list of constraints; the source stores a
Python set, and every consumer below is insensitive to order and multiplicity
of the entries. -/
abbrev ConstraintSet := List Constraint

/-- Appends a node to the key list if absent, mirroring dict-key insertion
order in `ConstraintSet._build_graph`. -/
def addIfAbsent (l : List ℕ) (x : ℕ) : List ℕ := if x ∈ l then l else l ++ [x]

/-- The keys of the graph built by `ConstraintSet._build_graph`: every id
occurring as higher or lower endpoint of some constraint. -/
def nodesOf (cs : ConstraintSet) : List ℕ :=
  cs.foldl (fun acc c => addIfAbsent (addIfAbsent acc c.higher) c.lower) []

/-- The adjacency of the graph built by `ConstraintSet._build_graph`: the edge
`higher → lower` for each constraint. -/
def adjOf (cs : ConstraintSet) (n : ℕ) : List ℕ :=
  (cs.filter (fun c => c.higher == n)).map (fun c => c.lower)

/-- The edge relation of the constraint graph. -/
def edgeOf (cs : ConstraintSet) (a b : ℕ) : Prop :=
  ∃ c ∈ cs, c.higher = a ∧ c.lower = b

/-- The constraint graph contains a directed cycle. -/
def HasCycle (cs : ConstraintSet) : Prop :=
  ∃ n, Relation.TransGen (edgeOf cs) n n

/-- The neighbor loop of `ConstraintSet._has_cycle_dfs`: recurse (through the
supplied visit function, the depth-limited `dfsVisit` one level down) into
white neighbors, report a cycle on a grey neighbor, skip black ones. -/
def dfsNbrs (visit : ℕ → List ℕ → List ℕ → Bool × List ℕ) :
    List ℕ → List ℕ → List ℕ → Bool × List ℕ
  | [], visited, _ => (false, visited)
  | nbr :: rest, visited, recStack =>
    if nbr ∉ visited then
      match visit nbr visited recStack with
      | (true, visited2) => (true, visited2)
      | (false, visited2) => dfsNbrs visit rest visited2 recStack
    else if nbr ∈ recStack then (true, visited)
    else dfsNbrs visit rest visited recStack

/-- Embeds `ConstraintSet._has_cycle_dfs`: mark the node visited and grey, then
scan its neighbors.  The fuel bounds the recursion depth: calls nest only into
unvisited nodes, so `|nodes| + 1` is always sufficient (the fuel-0 branch is
unreachable at that budget, see `dfsVisit_true` below). -/
def dfsVisit (adj : ℕ → List ℕ) : ℕ → ℕ → List ℕ → List ℕ → Bool × List ℕ
  | 0, _, visited, _ => (true, visited)
  | fuel + 1, node, visited, recStack =>
    dfsNbrs (dfsVisit adj fuel) (adj node) (node :: visited) (node :: recStack)

/-- The outer loop of `ConstraintSet.is_consistent`: run the DFS from every
unvisited key; any detected cycle makes the set inconsistent. -/
def isConsistentGo (cs : ConstraintSet) : List ℕ → List ℕ → Bool
  | [], _ => true
  | n :: rest, visited =>
    if n ∈ visited then isConsistentGo cs rest visited
    else
      match dfsVisit (adjOf cs) ((nodesOf cs).length + 1) n visited [] with
      | (true, _) => false
      | (false, visited2) => isConsistentGo cs rest visited2

/-- Embeds `ConstraintSet.is_consistent`. -/
def isConsistent (cs : ConstraintSet) : Bool :=
  isConsistentGo cs (nodesOf cs) []

/-- One open-set entry of `AStarSolver._a_star_search`:
`(f_score, g_score, position, path, last_direction)`. -/
structure Entry where
  f : ℚ
  g : ℚ
  pos : Pt
  path : List Pt
  lastDir : Option Axis
deriving DecidableEq

/-- Lexicographic strict order on points, as Python compares int tuples. -/
def ptLt (p q : Pt) : Bool :=
  decide (p.1 < q.1) || (decide (p.1 = q.1) &&
    (decide (p.2.1 < q.2.1) || (decide (p.2.1 = q.2.1) && decide (p.2.2 < q.2.2))))

/-- Lexicographic strict order on point lists, as Python compares lists. -/
def ptListLt : List Pt → List Pt → Bool
  | [], [] => false
  | [], _ :: _ => true
  | _ :: _, [] => false
  | a :: as, b :: bs => ptLt a b || (decide (a = b) && ptListLt as bs)

/-- The tuple order `heapq` pops by, up to the path component: the last
direction never decides a comparison, because two entries equal in
`(f, g, pos, path)` are equal outright (the pushed direction is determined by
the last step of the path). -/
def entryLe (a b : Entry) : Bool :=
  decide (a.f < b.f) || (decide (a.f = b.f) &&
    (decide (a.g < b.g) || (decide (a.g = b.g) &&
      (ptLt a.pos b.pos || (decide (a.pos = b.pos) &&
        (ptListLt a.path b.path || decide (a.path = b.path)))))))

/-- Embeds `heapq.heappop`: remove the least entry (leftmost among equals). -/
def popMin : List Entry → Option (Entry × List Entry)
  | [] => none
  | e :: rest =>
    match popMin rest with
    | none => some (e, [])
    | some (m, rest2) => if entryLe e m then some (e, rest) else some (m, e :: rest2)

/-- Lookup in the `visited` dict of `_a_star_search`. -/
def lookupV : List (Pt × ℚ) → Pt → Option ℚ
  | [], _ => none
  | (k, v) :: rest, p => if k = p then some v else lookupV rest p

/-- Update of the `visited` dict of `_a_star_search`. -/
def updateV : List (Pt × ℚ) → Pt → ℚ → List (Pt × ℚ)
  | [], p, g => [(p, g)]
  | (k, v) :: rest, p, g => if k = p then (p, g) :: rest else (k, v) :: updateV rest p g

/-- The neighbor body of `_a_star_search`: skip non-free neighbors, price the
move with the bend penalty 50, and on improvement record the g-score and push
the extended path. -/
def relaxNeighbor (e : Env) (goal : Pt) (diameter : ℚ) (g : ℚ) (current : Pt)
    (cpath : List Pt) (lastDir : Option Axis)
    (st : List Entry × List (Pt × ℚ)) (nbr : Pt) : List Entry × List (Pt × ℚ) :=
  if !(isFree e nbr) then st
  else
    let currentDir := getDirection current nbr
    let moveCost := calcDistance current nbr * diameter +
      (match lastDir with
       | some d => if currentDir ≠ some d then (50 : ℚ) else 0
       | none => 0)
    let newG := g + moveCost
    let improved :=
      match lookupV st.2 nbr with
      | none => true
      | some old => decide (newG < old)
    if improved then
      (st.1 ++ [⟨newG + (manhattan nbr goal : ℚ), newG, nbr, cpath ++ [nbr], currentDir⟩],
       updateV st.2 nbr newG)
    else st

/-- The main loop of `AStarSolver._a_star_search`.  Fuel models the per-call
wall-clock budget: the source checks the clock once per iteration and returns
`None` on expiry, which is the fuel-0 case here; an empty open set also
returns `None`; popping the goal returns its path. -/
def aStarGo (e : Env) (goal : Pt) (diameter : ℚ) :
    ℕ → List Entry → List (Pt × ℚ) → Option (List Pt)
  | 0, _, _ => none
  | fuel + 1, heap, visited =>
    match popMin heap with
    | none => none
    | some (en, heap2) =>
      if en.pos = goal then some en.path
      else if (match lookupV visited en.pos with
               | some best => decide (best < en.g)
               | none => false) then
        aStarGo e goal diameter fuel heap2 visited
      else
        let st := (getNeighbors e en.pos).foldl
          (relaxNeighbor e goal diameter en.g en.pos en.path en.lastDir) (heap2, visited)
        aStarGo e goal diameter fuel st.1 st.2

/-- Embeds `AStarSolver._a_star_search`: initial heap holds
`(h(start), 0, start, [start], None)` and `visited = {start: 0}`. -/
def aStarSearch (e : Env) (fuel : ℕ) (start goal : Pt) (diameter : ℚ) : Option (List Pt) :=
  aStarGo e goal diameter fuel
    [⟨(manhattan start goal : ℚ), 0, start, [start], none⟩] [(start, 0)]

/-- Embeds `AStarSolver.solve`: mark every obstacle pipe's path, run the
search, and unmark in the `finally` block on every exit.  The pair returned is
the search result together with the environment after the call (the search
itself only reads the environment). -/
def solverSolve (e : Env) (fuel : ℕ) (p : Pipe) (obstaclesPipes : List Pipe) :
    Option (List Pt) × Env :=
  let marked := markAll e obstaclesPipes
  (aStarSearch marked fuel p.start p.goal p.diameter, unmarkAll marked obstaclesPipes)

/-- A conflict-tree node (`CTNode`): plan snapshot, constraint set, depth. -/
structure CTNodeL where
  plan : Plan
  constraints : ConstraintSet
  depth : ℕ
deriving DecidableEq

/-- Embeds lines 184-196 of `PBS._branch` (pbs-py.py), the fate of one ordered
branch after the router ran: a found path is installed and the child is always
kept; on failure the plan's num_missing is compared against max_missing BEFORE
the lower pipe's path is cleared, and only an admissible branch clears the path
and keeps the child. -/
def branchStep (childPlan : Plan) (lower : ℕ) (newPath : Option (List Pt))
    (maxMissing : WithTop ℕ) : Option Plan :=
  match newPath with
  | some pa => some (planSetPath childPlan lower (some pa))
  | none =>
    if (numMissing childPlan : WithTop ℕ) ≤ maxMissing then
      some (planSetPath childPlan lower none)
    else none

/-- Embeds `PBS._get_higher_priority_pipes`: the direct higher predecessors of
`pipeId` in the constraint set that currently have a path. -/
def getHigherPriorityPipes (plan : Plan) (pipeId : ℕ) (cs : ConstraintSet) : List Pipe :=
  ((cs.filter (fun c => c.lower == pipeId)).map (fun c => getPipe plan c.higher)).filter
    (fun p => p.path.isSome)

/-- Embeds `PBS._branch` (pbs-py.py).  The selected conflict is a parameter
(the source draws it from a seeded RNG via `select_conflict`); the low-level
solver is the abstract router contract `BaseSolver.solve`.  For each ordered
pair the tentative constraint set is the parent's copy plus the new constraint
(set insertion embedded as cons; all consumers are membership-based); an
inconsistent set skips the branch, otherwise the lower pipe is re-planned
against its direct higher predecessors and `branchStep` decides the child. -/
def branchOrdered (router : Pipe → List Pipe → Option (List Pt)) (maxMissing : WithTop ℕ)
    (node : CTNodeL) (children : List CTNodeL) (hl : ℕ × ℕ) : List CTNodeL :=
  if !(isConsistent (⟨hl.1, hl.2⟩ :: node.constraints)) then children
  else
    match branchStep node.plan hl.2
        (router (getPipe node.plan hl.2)
          (getHigherPriorityPipes node.plan hl.2 (⟨hl.1, hl.2⟩ :: node.constraints)))
        maxMissing with
    | some childPlan2 =>
        children ++ [⟨childPlan2, ⟨hl.1, hl.2⟩ :: node.constraints, node.depth + 1⟩]
    | none => children

/-- The loop of `PBS._branch` over the two orderings `(p1,p2)` and `(p2,p1)`
of the selected conflict. -/
def branchNode (router : Pipe → List Pipe → Option (List Pt)) (maxMissing : WithTop ℕ)
    (node : CTNodeL) (conflict : Option Conflict) : List CTNodeL :=
  match conflict with
  | none => []
  | some cf =>
    [(cf.pipe1, cf.pipe2), (cf.pipe2, cf.pipe1)].foldl
      (branchOrdered router maxMissing node) []

/-- Strict lexicographic order on quality tuples, as Python compares them. -/
def qualityLtB (a b : ℕ × WithTop ℚ) : Bool :=
  decide (a.1 < b.1) || (decide (a.1 = b.1) && decide (a.2 < b.2))

/-- Stable insertion keeping existing entries of not-smaller quality first. -/
def insertByQualityDesc (x : CTNodeL) : List CTNodeL → List CTNodeL
  | [] => [x]
  | y :: rest =>
    if qualityLtB (quality y.plan) (quality x.plan) then x :: y :: rest
    else y :: insertByQualityDesc x rest

/-- Embeds `children.sort(key=lambda n: n.get_quality(), reverse=True)`:
a stable sort into descending quality order (worse children first, so the
better child is popped first from the LIFO stack). -/
def sortChildrenDesc (l : List CTNodeL) : List CTNodeL :=
  l.foldl (fun acc x => insertByQualityDesc x acc) []

/-- Embeds the DFS loop of `PBS.solve` (pbs-py.py lines 67-102).  The stack
keeps its top at the head (the source pops from the end of a Python list and
extends with the sorted children, which is the same pop order as consing the
reversed sorted children here).  Fuel models the global wall-clock budget
checked at the top of each iteration; on expiry, as on an empty stack, the
best-so-far plan is returned.  The second component collects every value
assigned to `best_plan`, in assignment order. -/
def pbsLoop (router : Pipe → List Pipe → Option (List Pt))
    (select : Plan → Option Conflict) (maxMissing : WithTop ℕ) :
    ℕ → List CTNodeL → Option Plan → Option Plan × List Plan
  | 0, _, best => (best, [])
  | _ + 1, [], best => (best, [])
  | fuel + 1, node :: stack, best =>
    if best.isSome && !(isBetterThan node.plan best) then
      pbsLoop router select maxMissing fuel stack best
    else if !(hasConflicts node.plan) then
      if (numMissing node.plan : WithTop ℕ) ≤ maxMissing then
        let r := pbsLoop router select maxMissing fuel stack (some node.plan)
        (r.1, node.plan :: r.2)
      else pbsLoop router select maxMissing fuel stack best
    else
      let children := branchNode router maxMissing node (select node.plan)
      pbsLoop router select maxMissing fuel ((sortChildrenDesc children).reverse ++ stack) best

/-- Embeds the estimate of `FixOrder._sort_pipes_by_cost`:
manhattan distance times diameter. -/
def estimateCost (p : Pipe) : ℚ := (manhattan p.start p.goal : ℚ) * p.diameter

/-- Stable insertion for the descending sort of `FixOrder._sort_pipes_by_cost`. -/
def insertByEstimateDesc (x : Pipe) : List Pipe → List Pipe
  | [] => [x]
  | y :: rest =>
    if estimateCost y < estimateCost x then x :: y :: rest
    else y :: insertByEstimateDesc x rest

/-- Embeds `FixOrder._sort_pipes_by_cost`: stable descending sort by the
estimate. -/
def sortPipesByCost (ps : List Pipe) : List Pipe :=
  ps.foldl (fun acc x => insertByEstimateDesc x acc) []

/-- The routing loop of `FixOrder.solve`: route each pipe against the already
routed ones, thread the environment through each solver call, and keep the
successfully routed pipes in order. -/
def fixOrderGo (fuel : ℕ) : List Pipe → Env → List Pipe → Env × List Pipe
  | [], e, routed => (e, routed)
  | p :: rest, e, routed =>
    match solverSolve e fuel p routed with
    | (some path, e2) => fixOrderGo fuel rest e2 (routed ++ [setPath p (some path)])
    | (none, e2) => fixOrderGo fuel rest e2 routed

/-- The list of successfully routed pipes of a `FixOrder.solve` run, in
routing order. -/
def fixOrderRouted (e : Env) (fuel : ℕ) (pipes : List Pipe) : List Pipe :=
  (fixOrderGo fuel (sortPipesByCost pipes) e []).2

/-- Embeds `FixOrder.solve`: the final plan is over the original pipe list,
each pipe reflecting the in-place path assignment it received (pipes carry
distinct ids, so the id lookup reproduces the shared-object mutation). -/
def fixOrderSolve (e : Env) (fuel : ℕ) (pipes : List Pipe) : Plan :=
  let routed := fixOrderRouted e fuel pipes
  ⟨pipes.map (fun p => (routed.find? (fun r => r.id == p.id)).getD p)⟩

/-! ### Helper lemmas about the open set and the search loop -/

theorem popMin_eq_none {l : List Entry} : popMin l = none ↔ l = [] := by
  cases l with
  | nil => simp [popMin]
  | cons e rest =>
    simp only [popMin]
    cases h : popMin rest with
    | none => simp
    | some p => cases p with | mk m rest2 => by_cases hle : entryLe e m <;> simp [hle]

theorem popMin_mem {l l2 : List Entry} {e : Entry} (h : popMin l = some (e, l2)) : e ∈ l := by
  induction l generalizing e l2 with
  | nil => simp [popMin] at h
  | cons a rest ih =>
    simp only [popMin] at h
    cases hr : popMin rest with
    | none =>
      rw [hr] at h
      simp only [Option.some.injEq, Prod.mk.injEq] at h
      simp [h.1]
    | some p =>
      cases p with
      | mk m rest2 =>
        rw [hr] at h
        by_cases hle : entryLe a m
        · simp only [hle, if_pos, Option.some.injEq, Prod.mk.injEq] at h
          simp [h.1]
        · simp only [hle, if_neg, Option.some.injEq, Prod.mk.injEq, Bool.false_eq_true,
            not_false_iff] at h
          exact List.mem_cons_of_mem _ (ih (by rw [hr, h.1]))

theorem popMin_rest_subset {l l2 : List Entry} {e : Entry} (h : popMin l = some (e, l2)) :
    ∀ x ∈ l2, x ∈ l := by
  induction l generalizing e l2 with
  | nil => simp [popMin] at h
  | cons a rest ih =>
    simp only [popMin] at h
    cases hr : popMin rest with
    | none =>
      rw [hr] at h
      simp only [Option.some.injEq, Prod.mk.injEq] at h
      intro x hx
      rw [← h.2] at hx
      simp at hx
    | some p =>
      cases p with
      | mk m rest2 =>
        rw [hr] at h
        by_cases hle : entryLe a m
        · simp only [hle, if_pos, Option.some.injEq, Prod.mk.injEq] at h
          intro x hx
          rw [← h.2] at hx
          exact List.mem_cons_of_mem _ hx
        · simp only [hle, if_neg, Option.some.injEq, Prod.mk.injEq, Bool.false_eq_true,
            not_false_iff] at h
          intro x hx
          rw [← h.2] at hx
          rcases List.mem_cons.mp hx with rfl | hx2
          · exact List.mem_cons_self _ _
          · exact List.mem_cons_of_mem _ (ih (by rw [hr, h.1]) x hx2)

/-- Every entry the neighbor loop leaves in the open set either was already
there or was pushed for a free neighbor, extending the popped entry's path by
that neighbor. -/
theorem relax_fold_mem (e : Env) (goal : Pt) (d g : ℚ) (cur : Pt) (cpath : List Pt)
    (ld : Option Axis) (l : List Pt) (st : List Entry × List (Pt × ℚ)) :
    ∀ en ∈ ((l.foldl (relaxNeighbor e goal d g cur cpath ld) st).1),
      en ∈ st.1 ∨ (isFree e en.pos = true ∧ en.path = cpath ++ [en.pos]) := by
  induction l generalizing st with
  | nil => intro en hen; exact Or.inl hen
  | cons nbr rest ih =>
    intro en hen
    simp only [List.foldl_cons] at hen
    rcases ih (relaxNeighbor e goal d g cur cpath ld st nbr) en hen with hin | hnew
    · unfold relaxNeighbor at hin
      by_cases hf : isFree e nbr
      · simp only [hf, Bool.not_true, Bool.false_eq_true, if_neg, not_false_iff] at hin
        set improved :=
          match lookupV st.2 nbr with
          | none => true
          | some old => decide (g + (calcDistance cur nbr * d +
              (match ld with
               | some dd => if getDirection cur nbr ≠ some dd then (50 : ℚ) else 0
               | none => 0)) < old) with himp
        by_cases him : improved = true
        · rw [him] at hin
          simp only [if_pos] at hin
          rcases List.mem_append.mp hin with h1 | h2
          · exact Or.inl h1
          · simp only [List.mem_singleton] at h2
            subst h2
            exact Or.inr ⟨hf, rfl⟩
        · rw [Bool.not_eq_true] at him
          rw [him] at hin
          simp only [Bool.false_eq_true, if_neg, not_false_iff] at hin
          exact Or.inl hin
      · simp only [Bool.not_eq_true] at hf
        simp only [hf, Bool.not_false, if_pos] at hin
        exact Or.inl hin
    · exact Or.inr hnew

/-- The path stored in an open-set entry: starts at `s` and every later vertex
was checked free when it was generated. -/
def EntryInv (e : Env) (s : Pt) (en : Entry) : Prop :=
  en.path.head? = some s ∧ ∀ v ∈ en.path.drop 1, isFree e v = true

/-- The search-loop invariant: when every open entry's path starts at `s` and
has a free tail, any returned path does as well. -/
theorem aStarGo_invariant (e : Env) (goal : Pt) (d : ℚ) (s : Pt) :
    ∀ (fuel : ℕ) (heap : List Entry) (visited : List (Pt × ℚ)) (path : List Pt),
      (∀ en ∈ heap, EntryInv e s en) →
      aStarGo e goal d fuel heap visited = some path →
      path.head? = some s ∧ ∀ v ∈ path.drop 1, isFree e v = true := by
  intro fuel
  induction fuel with
  | zero => intro heap visited path _ h; simp [aStarGo] at h
  | succ f ih =>
    intro heap visited path hinv h
    rw [aStarGo] at h
    cases hp : popMin heap with
    | none => rw [hp] at h; simp at h
    | some p =>
      cases p with
      | mk en heap2 =>
        rw [hp] at h
        have hen : EntryInv e s en := hinv en (popMin_mem hp)
        by_cases hg : en.pos = goal
        · simp only [hg, if_pos] at h
          cases h
          exact hen
        · simp only [hg, if_neg, not_false_iff] at h
          by_cases hskip : (match lookupV visited en.pos with
              | some best => decide (best < en.g)
              | none => false) = true
          · rw [if_pos hskip] at h
            exact ih heap2 visited path
              (fun x hx => hinv x (popMin_rest_subset hp x hx)) h
          · rw [if_neg hskip] at h
            refine ih _ _ path ?_ h
            intro x hx
            rcases relax_fold_mem e goal d en.g en.pos en.path en.lastDir
                (getNeighbors e en.pos) (heap2, visited) x hx with hold | hnew
            · exact hinv x (popMin_rest_subset hp x hold)
            · obtain ⟨hfree, hpath⟩ := hnew
              obtain ⟨hhead, htail⟩ := hen
              constructor
              · rw [hpath]
                cases hcp : en.path with
                | nil => rw [hcp] at hhead; simp at hhead
                | cons a t => rw [hcp] at hhead; simpa using hhead
              · rw [hpath]
                cases hcp : en.path with
                | nil => rw [hcp] at hhead; simp at hhead
                | cons a t =>
                  intro v hv
                  simp only [List.cons_append, List.drop_succ_cons, List.drop_zero,
                    List.mem_append, List.mem_singleton] at hv
                  rcases hv with hv | rfl
                  · exact htail v (by rw [hcp]; simpa using hv)
                  · exact hfree

/-- Specification of a successful search: the returned path starts at the
start vertex and its tail consists of cells that were free when generated. -/
theorem aStarSearch_spec (e : Env) (fuel : ℕ) (s goal : Pt) (d : ℚ) (path : List Pt)
    (h : aStarSearch e fuel s goal d = some path) :
    path.head? = some s ∧ ∀ v ∈ path.drop 1, isFree e v = true := by
  refine aStarGo_invariant e goal d s fuel _ _ path ?_ h
  intro en hen
  simp only [List.mem_singleton] at hen
  subst hen
  constructor
  · rfl
  · intro v hv; simp at hv

/-- Claim C10: every path returned by the A* search starts at the pipe's start
vertex — which is never tested for bounds or freedom, the theorem needs no
assumption about it — and every subsequent vertex was in bounds and classified
free in the (static) environment the search ran against. -/
theorem C10_theorem (e : Env) (fuel : ℕ) (s goal : Pt) (d : ℚ) (path : List Pt)
    (h : aStarSearch e fuel s goal d = some path) :
    path.head? = some s ∧ ∀ v ∈ path.drop 1, isFree e v = true :=
  aStarSearch_spec e fuel s goal d path h

/-- Witness for C10 on a concrete successful search: in an empty 3×3×1 grid
the route (0,0,0) → (2,2,0) starts at the start and its tail is free. -/
theorem C10_witness :
    (aStarSearch ⟨(3, 3, 1), fun _ => .free, fun _ => none⟩ 60 (0, 0, 0) (2, 2, 0) 1 =
      some [(0, 0, 0), (0, 1, 0), (0, 2, 0), (1, 2, 0), (2, 2, 0)]) ∧
    ([(0, 0, 0), (0, 1, 0), (0, 2, 0), (1, 2, 0), (2, 2, 0)] : List Pt).head? =
      some ((0, 0, 0) : Pt) ∧
    ∀ v ∈ ([(0, 0, 0), (0, 1, 0), (0, 2, 0), (1, 2, 0), (2, 2, 0)] : List Pt).drop 1,
      isFree ⟨(3, 3, 1), fun _ => .free, fun _ => none⟩ v = true := by
  have h : aStarSearch ⟨(3, 3, 1), fun _ => .free, fun _ => none⟩ 60 (0, 0, 0) (2, 2, 0) 1 =
      some [(0, 0, 0), (0, 1, 0), (0, 2, 0), (1, 2, 0), (2, 2, 0)] := by decide
  exact ⟨h, C10_theorem _ 60 _ _ 1 _ h⟩

/-- Marking pipes never frees a cell: a cell that is not free stays not free. -/
theorem markAll_nonfree (c : Pt) :
    ∀ (ps : List Pipe) (e : Env), e.grid c ≠ .free → (markAll e ps).grid c ≠ .free := by
  intro ps
  induction ps with
  | nil => intro e h; exact h
  | cons p rest ih =>
    intro e h
    refine ih (markPipePath e p) ?_
    unfold markPipePath
    cases hp : p.path with
    | none => exact h
    | some pa =>
      generalize getOccupiedCells p = cells
      clear hp
      induction cells generalizing e with
      | nil => exact h
      | cons a t iht =>
        refine iht (markCell p.id e a) ?_
        unfold markCell
        by_cases hv : isValidCell e.size a
        · simp only [hv, if_pos]
          by_cases hca : a = c
          · subst hca; simp [Function.update]
          · show Function.update e.grid a .pipe c ≠ .free
            rw [Function.update_noteq (fun h2 => hca h2.symm)]
            exact h
        · simpa [hv] using h

/-- The size field is untouched by all cell operations. -/
theorem markCell_size (pid : ℕ) (e : Env) (c : Pt) : (markCell pid e c).size = e.size := by
  unfold markCell; split <;> rfl

theorem unmarkCell_size (pid : ℕ) (e : Env) (c : Pt) : (unmarkCell pid e c).size = e.size := by
  unfold unmarkCell; split <;> rfl

theorem markPipePath_size (e : Env) (p : Pipe) : (markPipePath e p).size = e.size := by
  unfold markPipePath
  cases p.path with
  | none => rfl
  | some pa =>
    generalize getOccupiedCells p = cells
    induction cells generalizing e with
    | nil => rfl
    | cons a t ih => rw [List.foldl_cons, ih, markCell_size]

theorem unmarkPipePath_size (e : Env) (p : Pipe) : (unmarkPipePath e p).size = e.size := by
  unfold unmarkPipePath
  cases p.path with
  | none => rfl
  | some pa =>
    generalize getOccupiedCells p = cells
    induction cells generalizing e with
    | nil => rfl
    | cons a t ih => rw [List.foldl_cons, ih, unmarkCell_size]

theorem markAll_size (e : Env) (ps : List Pipe) : (markAll e ps).size = e.size := by
  induction ps generalizing e with
  | nil => rfl
  | cons p rest ih => rw [markAll, List.foldl_cons, ← markAll, ih, markPipePath_size]

theorem unmarkAll_size (e : Env) (ps : List Pipe) : (unmarkAll e ps).size = e.size := by
  induction ps generalizing e with
  | nil => rfl
  | cons p rest ih => rw [unmarkAll, List.foldl_cons, ← unmarkAll, ih, unmarkPipePath_size]

/-- When the goal cell is not free, the search never returns a path: the goal
can only be popped after being pushed as a free neighbor. -/
theorem aStarGo_goal_blocked (e : Env) (goal : Pt) (d : ℚ)
    (hgoal : isFree e goal = false) :
    ∀ (fuel : ℕ) (heap : List Entry) (visited : List (Pt × ℚ)),
      (∀ en ∈ heap, en.pos ≠ goal) →
      aStarGo e goal d fuel heap visited = none := by
  intro fuel
  induction fuel with
  | zero => intro _ _ _; rfl
  | succ f ih =>
    intro heap visited hinv
    rw [aStarGo]
    cases hp : popMin heap with
    | none => rfl
    | some p =>
      cases p with
      | mk en heap2 =>
        have hne : en.pos ≠ goal := hinv en (popMin_mem hp)
        simp only [hne, if_neg, not_false_iff]
        by_cases hskip : (match lookupV visited en.pos with
            | some best => decide (best < en.g)
            | none => false) = true
        · rw [if_pos hskip]
          exact ih heap2 visited (fun x hx => hinv x (popMin_rest_subset hp x hx))
        · rw [if_neg hskip]
          refine ih _ _ ?_
          intro x hx
          rcases relax_fold_mem e goal d en.g en.pos en.path en.lastDir
              (getNeighbors e en.pos) (heap2, visited) x hx with hold | hnew
          · exact hinv x (popMin_rest_subset hp x hold)
          · intro heq
            rw [heq, hgoal] at hnew
            exact absurd hnew.1 (by simp)

/-! ### Claim C6 -/

/-- C6 test environment: a 2×1×1 grid whose cell (0,0,0) is an obstacle. -/
def envC6 : Env := addObstacle ⟨(2, 1, 1), fun _ => .free, fun _ => none⟩ ⟨(0, 0, 0), (0, 0, 0)⟩

/-- C6 counterexample pipe: starts inside the obstacle, goal free. -/
def pipeC6 : Pipe := { id := 0, start := (0, 0, 0), goal := (1, 0, 0), diameter := 1 }

/-- C6 witness pipe: starts free, goal inside the obstacle. -/
def pipeC6G : Pipe := { id := 0, start := (1, 0, 0), goal := (0, 0, 0), diameter := 1 }

/-- Counterexample to claim C6 as stated: a pipe whose START voxel is an
obstacle cell is routed anyway — the search never tests the start vertex, so
with a free reachable goal it returns a path instead of none. -/
theorem C6_counterexample :
    envC6.grid pipeC6.start = .obstacle ∧
    (solverSolve envC6 10 pipeC6 []).1 = some [(0, 0, 0), (1, 0, 0)] := by decide

/-- Claim C6 amended: for every pipe whose GOAL voxel is an obstacle cell and
whose start differs from its goal, the router returns none on every call
(any fuel, any obstacle-pipe set); a start inside an obstacle is not detected,
because the start vertex is never checked (see the counterexample). -/
theorem C6_amended (e : Env) (p : Pipe) (hgoal : e.grid p.goal = .obstacle)
    (hne : p.start ≠ p.goal) (fuel : ℕ) (obs : List Pipe) :
    (solverSolve e fuel p obs).1 = none := by
  show aStarGo (markAll e obs) p.goal p.diameter fuel _ _ = none
  apply aStarGo_goal_blocked
  · have hne2 : (markAll e obs).grid p.goal ≠ .free :=
      markAll_nonfree p.goal obs e (by rw [hgoal]; simp)
    simp [isFree, hne2]
  · intro en hen
    simp only [List.mem_singleton] at hen
    subst hen
    exact hne

/-- Witness for the amended C6: the concrete obstacle-goal pipe is rejected. -/
theorem C6_witness : (solverSolve envC6 10 pipeC6G []).1 = none :=
  C6_amended envC6 pipeC6G (by decide) (by decide) 10 []

/-! ### Claim C5 -/

/-- C5 test environment: a free 1×1×1 grid. -/
def envC5 : Env := ⟨(1, 1, 1), fun _ => .free, fun _ => none⟩

/-- C5 test pipe: start and goal voxel coincide. -/
def pipeC5 : Pipe := { id := 0, start := (0, 0, 0), goal := (0, 0, 0), diameter := 1 }

/-- Counterexample to claim C5 as stated: the router does return the
single-vertex path, but assigning it gives cost infinity — not 0 — and leaves
the length and bend-count attributes unset rather than 0, because
`_calculate_cost` treats paths with fewer than two vertices as degenerate. -/
theorem C5_counterexample :
    aStarSearch envC5 5 pipeC5.start pipeC5.goal pipeC5.diameter = some [(0, 0, 0)] ∧
    (setPath pipeC5 (some [(0, 0, 0)])).cost = some ⊤ ∧
    (setPath pipeC5 (some [(0, 0, 0)])).cost ≠ some ((0 : ℚ) : WithTop ℚ) ∧
    (setPath pipeC5 (some [(0, 0, 0)])).length ≠ some 0 ∧
    (setPath pipeC5 (some [(0, 0, 0)])).numBends ≠ some 0 := by decide

/-- Claim C5 amended: for every pipe whose start voxel equals its goal voxel
(in bounds and free), the router returns the single-vertex path `[start]`
whenever at least one loop iteration fits in the time budget; assigning that
path sets the pipe's cost to infinity (the cost routine flags sub-2-vertex
paths as degenerate) and leaves length and bend count unchanged (unset on a
fresh pipe) rather than 0. -/
theorem C5_amended (e : Env) (f : ℕ) (p : Pipe) (heq : p.start = p.goal)
    (_hvalid : isValidCell e.size p.start = true) (_hfree : isFree e p.start = true) :
    aStarSearch e (f + 1) p.start p.goal p.diameter = some [p.start] ∧
    (setPath p (some [p.start])).cost = some ⊤ ∧
    (setPath p (some [p.start])).length = p.length ∧
    (setPath p (some [p.start])).numBends = p.numBends := by
  refine ⟨?_, ?_, ?_, ?_⟩
  · rw [aStarSearch, aStarGo]
    simp [popMin, heq]
  · simp [setPath]
  · simp [setPath]
  · simp [setPath]

/-- Witness for the amended C5 at the concrete start-equals-goal pipe. -/
theorem C5_witness :
    aStarSearch envC5 (4 + 1) pipeC5.start pipeC5.goal pipeC5.diameter = some [pipeC5.start] ∧
    (setPath pipeC5 (some [pipeC5.start])).cost = some ⊤ ∧
    (setPath pipeC5 (some [pipeC5.start])).length = pipeC5.length ∧
    (setPath pipeC5 (some [pipeC5.start])).numBends = pipeC5.numBends :=
  C5_amended envC5 4 pipeC5 (by decide) (by decide) (by decide)

/-! ### Claim C1 -/

/-- The squared distance of a point to itself vanishes. -/
theorem distSq_self (p : Pt) : distSq p p = 0 := by simp [distSq]

/-- Squaring both sides of the vertex-distance test: for a positive clearance
`c`, the real comparison `sqrt(d2) < c` of `pbs.py` is the rational comparison
`d2 < c^2`. -/
theorem sqrt_lt_clearance (x : ℤ) (c : ℚ) (hc : 0 < c) :
    Real.sqrt ((x : ℤ) : ℝ) < ((c : ℚ) : ℝ) ↔ (x : ℚ) < c ^ 2 := by
  rw [Real.sqrt_lt' (by exact_mod_cast hc)]
  constructor
  · intro h; exact_mod_cast h
  · intro h; exact_mod_cast h

/-- C1 counterexample pipes: both of diameter 2, with single-vertex routed
paths one cell apart. -/
def pipeC1a : Pipe :=
  { id := 0, start := (0, 0, 0), goal := (0, 0, 0), diameter := 2, path := some [(0, 0, 0)] }

def pipeC1b : Pipe :=
  { id := 1, start := (1, 0, 0), goal := (1, 0, 0), diameter := 2, path := some [(1, 0, 0)] }

/-- Counterexample to claim C1 as stated: the pipes' vertices lie at euclidean
distance 1, strictly below the clearance (2+2)/2 = 2, so the claimed criterion
reports a conflict — yet `ConflictManager._check_collision`, the detector the
CTNode-based PBS uses, declares the pair conflict-free because the two paths
share no cell. -/
theorem C1_counterexample :
    checkCollision pipeC1a pipeC1b = false ∧
    pbsCloseVerts pipeC1a.diameter pipeC1b.diameter
      (getOccupiedCells pipeC1a) (getOccupiedCells pipeC1b) := by
  constructor
  · decide
  · refine ⟨(0, 0, 0), by decide, (1, 0, 0), by decide, ?_⟩
    rw [sqrt_lt_clearance _ _ (by decide)]
    decide

/-- Claim C1 amended: for pipes with routed paths and positive diameters, the
detector used by the CTNode-based PBS (`ConflictManager._check_collision`)
reports a conflict iff the two paths share a vertex; a shared vertex does give
a vertex pair at euclidean distance 0 < (dA+dB)/2, but a conflict-free verdict
only rules out coincident vertices, not vertex pairs closer than (dA+dB)/2.
The vertex-pair predicate of `pbs.py`'s `_get_first_conflict` is exactly the
claimed euclidean criterion (stated here as the equivalence between its
rational squared form and the real comparison of the source). -/
theorem C1_amended (a b : Pipe) (hda : 0 < a.diameter) (hdb : 0 < b.diameter) :
    (checkCollision a b = true ↔
      a.path.isSome = true ∧ b.path.isSome = true ∧
        ∃ v ∈ getOccupiedCells a, v ∈ getOccupiedCells b) ∧
    (checkCollision a b = true →
      pbsCloseVerts a.diameter b.diameter (getOccupiedCells a) (getOccupiedCells b)) ∧
    (pbsCloseVertsB a.diameter b.diameter (getOccupiedCells a) (getOccupiedCells b) = true ↔
      pbsCloseVerts a.diameter b.diameter (getOccupiedCells a) (getOccupiedCells b)) := by
  have hc : 0 < (a.diameter + b.diameter) / 2 := by positivity
  have hiff : checkCollision a b = true ↔
      a.path.isSome = true ∧ b.path.isSome = true ∧
        ∃ v ∈ getOccupiedCells a, v ∈ getOccupiedCells b := by
    unfold checkCollision
    by_cases hab : (a.path.isNone || b.path.isNone) = true
    · rw [if_pos hab]
      rcases Bool.or_eq_true_iff.mp hab with h | h
      · simp [Option.isNone_iff_eq_none.mp h]
      · simp [Option.isNone_iff_eq_none.mp h]
    · rw [if_neg hab]
      have hval : a.path.isSome = true ∧ b.path.isSome = true := by
        simp only [Bool.or_eq_true, not_or, Bool.not_eq_true,
          Option.isNone_eq_false_iff] at hab
        exact hab
      constructor
      · intro h
        obtain ⟨v, hv1, hv2⟩ := List.any_eq_true.mp h
        exact ⟨hval.1, hval.2, v, hv1, of_decide_eq_true hv2⟩
      · rintro ⟨-, -, v, hv1, hv2⟩
        exact List.any_eq_true.mpr ⟨v, hv1, decide_eq_true hv2⟩
  refine ⟨hiff, ?_, ?_⟩
  · intro h
    obtain ⟨-, -, v, hv1, hv2⟩ := hiff.mp h
    refine ⟨v, hv1, v, hv2, ?_⟩
    rw [distSq_self]
    simpa using (sqrt_lt_clearance 0 _ hc).mpr (by positivity)
  · unfold pbsCloseVertsB pbsCloseVerts
    constructor
    · intro h
      obtain ⟨v, hv1, h2⟩ := List.any_eq_true.mp h
      obtain ⟨w, hw1, hw2⟩ := List.any_eq_true.mp h2
      exact ⟨v, hv1, w, hw1, (sqrt_lt_clearance _ _ hc).mpr (of_decide_eq_true hw2)⟩
    · rintro ⟨v, hv1, w, hw1, hvw⟩
      exact List.any_eq_true.mpr ⟨v, hv1, List.any_eq_true.mpr
        ⟨w, hw1, decide_eq_true ((sqrt_lt_clearance _ _ hc).mp hvw)⟩⟩

/-- Witness for the amended C1 at the concrete pipe pair. -/
theorem C1_witness :
    (checkCollision pipeC1a pipeC1b = true ↔
      pipeC1a.path.isSome = true ∧ pipeC1b.path.isSome = true ∧
        ∃ v ∈ getOccupiedCells pipeC1a, v ∈ getOccupiedCells pipeC1b) ∧
    (checkCollision pipeC1a pipeC1b = true →
      pbsCloseVerts pipeC1a.diameter pipeC1b.diameter
        (getOccupiedCells pipeC1a) (getOccupiedCells pipeC1b)) ∧
    (pbsCloseVertsB pipeC1a.diameter pipeC1b.diameter
        (getOccupiedCells pipeC1a) (getOccupiedCells pipeC1b) = true ↔
      pbsCloseVerts pipeC1a.diameter pipeC1b.diameter
        (getOccupiedCells pipeC1a) (getOccupiedCells pipeC1b)) :=
  C1_amended pipeC1a pipeC1b (by decide) (by decide)

/-! ### Claim C2 -/

/-- Counting lemma: replacing the element at an in-range index changes a
countP by the difference of the predicate values. -/
theorem countP_set (p : Pipe → Bool) :
    ∀ (l : List Pipe) (i : ℕ) (hi : i < l.length) (x : Pipe),
      (l.set i x).countP p + (if p l[i] then 1 else 0) =
        l.countP p + (if p x then 1 else 0) := by
  intro l
  induction l with
  | nil => intro i hi; simp at hi
  | cons a t ih =>
    intro i hi x
    cases i with
    | zero =>
      simp only [List.set_cons_zero, List.getElem_cons_zero, List.countP_cons]
      by_cases hx : p x <;> by_cases ha : p a <;> simp [hx, ha]
    | succ j =>
      simp only [List.set_cons_succ, List.getElem_cons_succ, List.countP_cons]
      have := ih j (by simpa using hi) x
      by_cases ha : p a <;> simp [ha] <;> omega

/-- A missing count is a countP. -/
theorem numMissing_eq_countP (pl : Plan) :
    numMissing pl = pl.pipes.countP (fun p => !p.path.isSome) := by
  rw [numMissing, List.countP_eq_length_filter]

/-- The positional lookup agrees with list indexing in range. -/
theorem getPipe_eq_getElem (pl : Plan) (i : ℕ) (hi : i < pl.pipes.length) :
    getPipe pl i = pl.pipes[i] := by
  simp [getPipe, List.getD, List.getElem?_eq_getElem hi]

/-- setPath stores exactly the given path. -/
theorem setPath_path (p : Pipe) (pa : Option (List Pt)) : (setPath p pa).path = pa := by
  unfold setPath
  cases pa with
  | none => rfl
  | some l => by_cases h : l.length < 2 <;> simp [h]

/-- Installing a path on a routed pipe keeps the missing count. -/
theorem numMissing_planSetPath_some (pl : Plan) (i : ℕ) (hi : i < pl.pipes.length)
    (hrouted : (getPipe pl i).path.isSome = true) (pa : List Pt) :
    numMissing (planSetPath pl i (some pa)) = numMissing pl := by
  have h := countP_set (fun p => !p.path.isSome) pl.pipes i hi (setPath (getPipe pl i) (some pa))
  rw [getPipe_eq_getElem pl i hi] at hrouted
  rw [numMissing_eq_countP, numMissing_eq_countP]
  unfold planSetPath
  simp only [setPath_path, hrouted, Option.isSome_some, Bool.not_true, if_neg,
    Bool.false_eq_true, not_false_iff, Nat.add_zero] at h
  simpa using h

/-- Clearing the path of a routed pipe raises the missing count by one. -/
theorem numMissing_planSetPath_none (pl : Plan) (i : ℕ) (hi : i < pl.pipes.length)
    (hrouted : (getPipe pl i).path.isSome = true) :
    numMissing (planSetPath pl i none) = numMissing pl + 1 := by
  have h := countP_set (fun p => !p.path.isSome) pl.pipes i hi (setPath (getPipe pl i) none)
  rw [getPipe_eq_getElem pl i hi] at hrouted
  rw [numMissing_eq_countP, numMissing_eq_countP]
  unfold planSetPath
  simp only [setPath_path, hrouted, Option.isSome_some, Bool.not_true,
    Option.isSome_none, Bool.not_false, if_pos, if_neg, Bool.false_eq_true,
    not_false_iff, Nat.add_zero] at h
  simp only [h]

/-- C2 counterexample plan: pipe 0 is missing, pipes 1 and 2 are routed. -/
def planC2 : Plan :=
  ⟨[{ id := 0, start := (0, 0, 0), goal := (1, 1, 1), diameter := 1 },
    { id := 1, start := (0, 0, 0), goal := (0, 0, 0), diameter := 1, path := some [(0, 0, 0)] },
    { id := 2, start := (1, 0, 0), goal := (1, 0, 0), diameter := 1, path := some [(1, 0, 0)] }]⟩

/-- Counterexample to claim C2 as stated: with max_missing = 0 and another pipe
already missing, the router finds a path for the lower pipe and the branch
still creates and pushes a child whose plan has num_missing = 1 > 0 — the
claimed "child pushed iff child num_missing ≤ max_missing" fails (the code
never re-checks admissibility on the found-path side). -/
theorem C2_counterexample :
    (branchStep planC2 1 (some [(5, 5, 5)]) 0).isSome = true ∧
    (branchStep planC2 1 (some [(5, 5, 5)]) 0).map numMissing = some 1 ∧
    ¬((1 : WithTop ℕ) ≤ 0) := by decide

/-- Claim C2 amended: in a PBS branch on an acyclic tentative constraint set,
when the router finds a path it is installed and a child is created and pushed
unconditionally; when the router finds none, the child is created and pushed
iff the plan's num_missing computed BEFORE clearing the lower pipe's path is at
most max_missing — in that case the lower path is set to none, so the pushed
child's num_missing is the count before plus one and may exceed max_missing.
Thus a child is pushed iff the router succeeded or the pre-clear num_missing is
within budget. -/
theorem C2_amended (pl : Plan) (lower : ℕ) (res : Option (List Pt)) (mm : WithTop ℕ)
    (hlt : lower < pl.pipes.length) (hrouted : (getPipe pl lower).path.isSome = true) :
    ((branchStep pl lower res mm).isSome = true ↔
      res.isSome = true ∨ (numMissing pl : WithTop ℕ) ≤ mm) ∧
    (∀ pa, res = some pa →
      branchStep pl lower res mm = some (planSetPath pl lower (some pa)) ∧
      numMissing (planSetPath pl lower (some pa)) = numMissing pl) ∧
    (res = none → (numMissing pl : WithTop ℕ) ≤ mm →
      branchStep pl lower res mm = some (planSetPath pl lower none) ∧
      numMissing (planSetPath pl lower none) = numMissing pl + 1) ∧
    (res = none → ¬((numMissing pl : WithTop ℕ) ≤ mm) →
      branchStep pl lower res mm = none) := by
  refine ⟨?_, ?_, ?_, ?_⟩
  · cases res with
    | some pa => simp [branchStep]
    | none =>
      by_cases hmm : (numMissing pl : WithTop ℕ) ≤ mm
      · simp [branchStep, hmm]
      · simp [branchStep, hmm]
  · rintro pa rfl
    exact ⟨rfl, numMissing_planSetPath_some pl lower hlt hrouted pa⟩
  · rintro rfl hmm
    refine ⟨by simp [branchStep, hmm], numMissing_planSetPath_none pl lower hlt hrouted⟩
  · rintro rfl hmm
    simp [branchStep, hmm]

/-- Witness for the amended C2 at the concrete plan, lower pipe 1, router
failure, budget 0: the missing count before clearing is 1, which exceeds the
budget, so no child is created. -/
theorem C2_witness :
    ((branchStep planC2 1 none 0).isSome = true ↔
      (none : Option (List Pt)).isSome = true ∨ (numMissing planC2 : WithTop ℕ) ≤ 0) ∧
    (∀ pa, (none : Option (List Pt)) = some pa →
      branchStep planC2 1 none 0 = some (planSetPath planC2 1 (some pa)) ∧
      numMissing (planSetPath planC2 1 (some pa)) = numMissing planC2) ∧
    ((none : Option (List Pt)) = none → (numMissing planC2 : WithTop ℕ) ≤ 0 →
      branchStep planC2 1 none 0 = some (planSetPath planC2 1 none) ∧
      numMissing (planSetPath planC2 1 none) = numMissing planC2 + 1) ∧
    ((none : Option (List Pt)) = none → ¬((numMissing planC2 : WithTop ℕ) ≤ 0) →
      branchStep planC2 1 none 0 = none) :=
  C2_amended planC2 1 none 0 (by decide) (by decide)

/-! ### Claim C4 -/

/-- The public operations of the environment the claim ranges over. -/
inductive EnvOp where
  | addObs (o : Obstacle)
  | mark (p : Pipe)
  | unmark (p : Pipe)

/-- Dispatch of one public operation. -/
def applyOp (e : Env) : EnvOp → Env
  | .addObs o => addObstacle e o
  | .mark p => markPipePath e p
  | .unmark p => unmarkPipePath e p

/-- A sequence of public operations applied in order. -/
def applyOps (e : Env) (ops : List EnvOp) : Env := ops.foldl applyOp e

/-- Adding an obstacle never touches the owner map. -/
theorem addObstacle_occ (e : Env) (o : Obstacle) : (addObstacle e o).occ = e.occ := by
  unfold addObstacle
  generalize obstacleCells o = cells
  induction cells generalizing e with
  | nil => rfl
  | cons a t ih =>
    rw [List.foldl_cons]
    rw [ih]
    split <;> rfl

/-- Adding an obstacle keeps every obstacle cell an obstacle. -/
theorem addObstacle_grid_obstacle (e : Env) (o : Obstacle) (c : Pt)
    (h : e.grid c = .obstacle) : (addObstacle e o).grid c = .obstacle := by
  unfold addObstacle
  generalize obstacleCells o = cells
  induction cells generalizing e with
  | nil => exact h
  | cons a t ih =>
    rw [List.foldl_cons]
    refine ih _ ?_
    by_cases hv : isValidCell e.size a
    · simp only [hv, if_pos]
      by_cases hac : a = c
      · subst hac; simp [Function.update]
      · show Function.update e.grid a .obstacle c = .obstacle
        rw [Function.update_noteq (fun h2 => hac h2.symm)]
        exact h
    · simpa [hv] using h

/-- Marking a pipe whose cells avoid `c` changes nothing at `c`. -/
theorem markPipePath_not_mem (e : Env) (p : Pipe) (c : Pt) (h : c ∉ getOccupiedCells p) :
    (markPipePath e p).grid c = e.grid c ∧ (markPipePath e p).occ c = e.occ c := by
  unfold markPipePath
  cases hp : p.path with
  | none => exact ⟨rfl, rfl⟩
  | some pa =>
    revert h
    generalize getOccupiedCells p = cells
    intro h
    induction cells generalizing e with
    | nil => exact ⟨rfl, rfl⟩
    | cons a t ih =>
      have hac : a ≠ c := fun hac => h (by rw [hac]; exact List.mem_cons_self _ _)
      have hct : c ∉ t := fun hct => h (List.mem_cons_of_mem _ hct)
      rw [List.foldl_cons]
      have step : (markCell p.id e a).grid c = e.grid c ∧ (markCell p.id e a).occ c = e.occ c := by
        unfold markCell
        split
        · constructor
          · show Function.update e.grid a .pipe c = e.grid c
            rw [Function.update_noteq (fun h2 => hac h2.symm)]
          · show Function.update e.occ a (some p.id) c = e.occ c
            rw [Function.update_noteq (fun h2 => hac h2.symm)]
        · exact ⟨rfl, rfl⟩
      obtain ⟨h1, h2⟩ := ih (markCell p.id e a) hct
      exact ⟨h1.trans step.1, h2.trans step.2⟩

/-- Unmarking a pipe cannot touch a cell the owner map does not attribute:
with `occ c = none` both the grid and the owner map at `c` are unchanged. -/
theorem unmarkPipePath_occ_none (e : Env) (p : Pipe) (c : Pt) (h : e.occ c = none) :
    (unmarkPipePath e p).grid c = e.grid c ∧ (unmarkPipePath e p).occ c = none := by
  unfold unmarkPipePath
  cases hp : p.path with
  | none => exact ⟨rfl, h⟩
  | some pa =>
    generalize getOccupiedCells p = cells
    induction cells generalizing e with
    | nil => exact ⟨rfl, h⟩
    | cons a t ih =>
      rw [List.foldl_cons]
      have step : (unmarkCell p.id e a).grid c = e.grid c ∧
          (unmarkCell p.id e a).occ c = none := by
        unfold unmarkCell
        by_cases hguard : e.occ a = some p.id
        · have hac : a ≠ c := by
            intro hac; rw [hac, h] at hguard; exact Option.noConfusion hguard
          rw [if_pos hguard]
          constructor
          · show Function.update e.grid a .free c = e.grid c
            rw [Function.update_noteq (fun h2 => hac h2.symm)]
          · show Function.update e.occ a none c = none
            rw [Function.update_noteq (fun h2 => hac h2.symm)]
            exact h
        · rw [if_neg hguard]
          exact ⟨rfl, h⟩
      obtain ⟨h1, h2⟩ := ih (unmarkCell p.id e a) step.2
      exact ⟨h1.trans step.1, h2⟩

/-- C4 base environment, obstacle and pipe for the concrete scenarios. -/
def envC4 : Env := ⟨(1, 1, 1), fun _ => .free, fun _ => none⟩

def obsC4 : Obstacle := ⟨(0, 0, 0), (0, 0, 0)⟩

def pipeC4 : Pipe :=
  { id := 3, start := (0, 0, 0), goal := (0, 0, 0), diameter := 1, path := some [(0, 0, 0)] }

/-- A second pipe whose path avoids the obstacle voxel, for the witness. -/
def pipeC4b : Pipe :=
  { id := 4, start := (0, 0, 0), goal := (0, 0, 0), diameter := 1, path := some [(5, 5, 5)] }

/-- Counterexample to claim C4 as stated: after `add_obstacle` classifies
(0,0,0) as obstacle, `mark_pipe_path` of a pipe whose path crosses that voxel
overwrites the classification with the pipe state — the voxel does not remain
an obstacle. -/
theorem C4_counterexample :
    (applyOps envC4 [.addObs obsC4]).grid (0, 0, 0) = .obstacle ∧
    (applyOps envC4 [.addObs obsC4, .mark pipeC4]).grid (0, 0, 0) = .pipe ∧
    (applyOps envC4 [.addObs obsC4, .mark pipeC4]).grid (0, 0, 0) ≠ .obstacle := by
  refine ⟨by decide, by decide, by decide⟩

/-- Claim C4 amended: a voxel classified as obstacle (and unowned, as every
in-contract environment keeps obstacle voxels) remains classified as obstacle
after every subsequent public operation, provided no `mark_pipe_path` in the
sequence marks a pipe whose path covers that voxel — router-produced paths
never do, but an arbitrary mark may overwrite the classification (see the
counterexample). -/
theorem C4_amended (e : Env) (ops : List EnvOp) (c : Pt)
    (hg : e.grid c = .obstacle) (ho : e.occ c = none)
    (hmark : ∀ p, EnvOp.mark p ∈ ops → c ∉ getOccupiedCells p) :
    (applyOps e ops).grid c = .obstacle ∧ (applyOps e ops).occ c = none := by
  induction ops generalizing e with
  | nil => exact ⟨hg, ho⟩
  | cons op rest ih =>
    have hstep : (applyOp e op).grid c = .obstacle ∧ (applyOp e op).occ c = none := by
      cases op with
      | addObs o =>
        refine ⟨addObstacle_grid_obstacle e o c hg, ?_⟩
        show (addObstacle e o).occ c = none
        rw [addObstacle_occ]; exact ho
      | mark p =>
        obtain ⟨h1, h2⟩ := markPipePath_not_mem e p c (hmark p (List.mem_cons_self _ _))
        exact ⟨by show (markPipePath e p).grid c = .obstacle; rw [h1]; exact hg,
               by show (markPipePath e p).occ c = none; rw [h2]; exact ho⟩
      | unmark p =>
        obtain ⟨h1, h2⟩ := unmarkPipePath_occ_none e p c ho
        exact ⟨by show (unmarkPipePath e p).grid c = .obstacle; rw [h1]; exact hg, h2⟩
    exact ih (applyOp e op) hstep.1 hstep.2
      (fun p hp => hmark p (List.mem_cons_of_mem _ hp))

/-- Witness for the amended C4: the obstacle voxel survives an obstacle
addition, a mark of a pipe elsewhere, and an unmark. -/
theorem C4_witness :
    (applyOps (applyOps envC4 [.addObs obsC4])
      [.addObs obsC4, .mark pipeC4b, .unmark pipeC4]).grid (0, 0, 0) = .obstacle ∧
    (applyOps (applyOps envC4 [.addObs obsC4])
      [.addObs obsC4, .mark pipeC4b, .unmark pipeC4]).occ (0, 0, 0) = none := by
  refine C4_amended _ _ _ (by decide) (by decide) ?_
  intro p hp
  simp only [List.mem_cons, List.not_mem_nil, or_false] at hp
  rcases hp with h | h | h
  · exact absurd h (by intro hcon; cases hcon)
  · cases h; decide
  · exact absurd h (by intro hcon; cases hcon)

/-! ### Claim C3 -/

/-- A single mark write leaves every other cell (and invalid targets) alone. -/
theorem markCell_untouched (pid : ℕ) (e : Env) (a c : Pt)
    (h : a ≠ c ∨ isValidCell e.size a = false) :
    (markCell pid e a).grid c = e.grid c ∧ (markCell pid e a).occ c = e.occ c := by
  unfold markCell
  by_cases hv : isValidCell e.size a
  · rcases h with hne | hfalse
    · rw [if_pos hv]
      exact ⟨Function.update_noteq (fun h2 => hne h2.symm) _ _,
             Function.update_noteq (fun h2 => hne h2.symm) _ _⟩
    · rw [hv] at hfalse; cases hfalse
  · rw [if_neg hv]; exact ⟨rfl, rfl⟩

/-- A single mark write sets the target cell when it is valid. -/
theorem markCell_writes (pid : ℕ) (e : Env) (c : Pt) (hv : isValidCell e.size c = true) :
    (markCell pid e c).grid c = .pipe ∧ (markCell pid e c).occ c = some pid := by
  unfold markCell
  rw [if_pos hv]
  exact ⟨Function.update_same _ _ _, Function.update_same _ _ _⟩

/-- A single unmark write leaves every other cell (and cells it does not own)
alone. -/
theorem unmarkCell_untouched (pid : ℕ) (e : Env) (a c : Pt)
    (h : a ≠ c ∨ e.occ a ≠ some pid) :
    (unmarkCell pid e a).grid c = e.grid c ∧ (unmarkCell pid e a).occ c = e.occ c := by
  unfold unmarkCell
  by_cases hg : e.occ a = some pid
  · rcases h with hne | hno
    · rw [if_pos hg]
      exact ⟨Function.update_noteq (fun h2 => hne h2.symm) _ _,
             Function.update_noteq (fun h2 => hne h2.symm) _ _⟩
    · exact absurd hg hno
  · rw [if_neg hg]; exact ⟨rfl, rfl⟩

/-- A single unmark write clears an owned cell. -/
theorem unmarkCell_clears (pid : ℕ) (e : Env) (c : Pt) (h : e.occ c = some pid) :
    (unmarkCell pid e c).grid c = .free ∧ (unmarkCell pid e c).occ c = none := by
  unfold unmarkCell
  rw [if_pos h]
  exact ⟨Function.update_same _ _ _, Function.update_same _ _ _⟩

/-- The mark loop leaves a cell alone when the cell is not in the list or is
out of bounds. -/
theorem foldl_markCell_untouched (pid : ℕ) (l : List Pt) :
    ∀ (e : Env) (c : Pt), (c ∉ l ∨ isValidCell e.size c = false) →
      (l.foldl (markCell pid) e).grid c = e.grid c ∧
        (l.foldl (markCell pid) e).occ c = e.occ c := by
  induction l with
  | nil => intro e c _; exact ⟨rfl, rfl⟩
  | cons a t ih =>
    intro e c h
    rw [List.foldl_cons]
    have step : (markCell pid e a).grid c = e.grid c ∧ (markCell pid e a).occ c = e.occ c := by
      refine markCell_untouched pid e a c ?_
      rcases h with hnm | hinv
      · exact Or.inl (fun hac => hnm (hac ▸ List.mem_cons_self _ _))
      · by_cases hac : a = c
        · exact Or.inr (hac ▸ hinv)
        · exact Or.inl hac
    have hrec := ih (markCell pid e a) c (by
      rcases h with hnm | hinv
      · exact Or.inl (fun hct => hnm (List.mem_cons_of_mem _ hct))
      · exact Or.inr (by rw [markCell_size]; exact hinv))
    exact ⟨hrec.1.trans step.1, hrec.2.trans step.2⟩

/-- After the mark loop runs over a list containing a valid cell, that cell is
owned by the marking pipe id and classified pipe. -/
theorem foldl_markCell_writes (pid : ℕ) (l : List Pt) :
    ∀ (e : Env) (c : Pt), c ∈ l → isValidCell e.size c = true →
      (l.foldl (markCell pid) e).grid c = .pipe ∧
        (l.foldl (markCell pid) e).occ c = some pid := by
  induction l with
  | nil => intro e c hc; simp at hc
  | cons a t ih =>
    intro e c hc hv
    rw [List.foldl_cons]
    by_cases hct : c ∈ t
    · exact ih (markCell pid e a) c hct (by rw [markCell_size]; exact hv)
    · have hac : a = c := by
        rcases List.mem_cons.mp hc with h | h
        · exact h.symm
        · exact absurd h hct
      subst hac
      have hw := markCell_writes pid e a hv
      have hrec := foldl_markCell_untouched pid t (markCell pid e a) a (Or.inl hct)
      exact ⟨hrec.1.trans hw.1, hrec.2.trans hw.2⟩

/-- The unmark loop leaves a cell alone when the incoming owner is not the
unmarking pipe id. -/
theorem foldl_unmarkCell_wrong (pid : ℕ) (l : List Pt) :
    ∀ (e : Env) (c : Pt), e.occ c ≠ some pid →
      (l.foldl (unmarkCell pid) e).grid c = e.grid c ∧
        (l.foldl (unmarkCell pid) e).occ c = e.occ c := by
  induction l with
  | nil => intro e c _; exact ⟨rfl, rfl⟩
  | cons a t ih =>
    intro e c h
    rw [List.foldl_cons]
    have step : (unmarkCell pid e a).grid c = e.grid c ∧
        (unmarkCell pid e a).occ c = e.occ c := by
      refine unmarkCell_untouched pid e a c ?_
      by_cases hac : a = c
      · exact Or.inr (hac ▸ h)
      · exact Or.inl hac
    have hrec := ih (unmarkCell pid e a) c (by rw [step.2]; exact h)
    exact ⟨hrec.1.trans step.1, hrec.2.trans step.2⟩

/-- The unmark loop frees and disowns a listed cell owned by the unmarking id. -/
theorem foldl_unmarkCell_clears (pid : ℕ) (l : List Pt) :
    ∀ (e : Env) (c : Pt), c ∈ l → e.occ c = some pid →
      (l.foldl (unmarkCell pid) e).grid c = .free ∧
        (l.foldl (unmarkCell pid) e).occ c = none := by
  induction l with
  | nil => intro e c hc; simp at hc
  | cons a t ih =>
    intro e c hc hown
    rw [List.foldl_cons]
    by_cases hac : a = c
    · subst hac
      have hw := unmarkCell_clears pid e a hown
      have hrec := foldl_unmarkCell_wrong pid t (unmarkCell pid e a) a
        (by rw [hw.2]; exact fun hcon => Option.noConfusion hcon)
      exact ⟨hrec.1.trans hw.1, hrec.2.trans hw.2⟩
    · have hct : c ∈ t := by
        rcases List.mem_cons.mp hc with h | h
        · exact absurd h.symm hac
        · exact h
      have step : (unmarkCell pid e a).occ c = e.occ c :=
        (unmarkCell_untouched pid e a c (Or.inl hac)).2
      exact ih (unmarkCell pid e a) c hct (by rw [step]; exact hown)

/-- Unmarking a pipe whose cells avoid `c` changes nothing at `c`. -/
theorem unmarkPipePath_not_mem (e : Env) (p : Pipe) (c : Pt) (h : c ∉ getOccupiedCells p) :
    (unmarkPipePath e p).grid c = e.grid c ∧ (unmarkPipePath e p).occ c = e.occ c := by
  unfold unmarkPipePath
  cases hp : p.path with
  | none => exact ⟨rfl, rfl⟩
  | some pa =>
    revert h
    generalize getOccupiedCells p = cells
    intro h
    induction cells generalizing e with
    | nil => exact ⟨rfl, rfl⟩
    | cons a t ih =>
      have hac : a ≠ c := fun hac => h (by rw [hac]; exact List.mem_cons_self _ _)
      have hct : c ∉ t := fun hct => h (List.mem_cons_of_mem _ hct)
      rw [List.foldl_cons]
      have step := unmarkCell_untouched p.id e a c (Or.inl hac)
      have hrec := ih (unmarkCell p.id e a) hct
      exact ⟨hrec.1.trans step.1, hrec.2.trans step.2⟩

/-- Marking a whole pipe list leaves a cell alone when no listed pipe's path
covers it. -/
theorem markAll_untouched (c : Pt) :
    ∀ (ps : List Pipe) (e : Env), (∀ q ∈ ps, c ∉ getOccupiedCells q) →
      (markAll e ps).grid c = e.grid c ∧ (markAll e ps).occ c = e.occ c := by
  intro ps
  induction ps with
  | nil => intro e _; exact ⟨rfl, rfl⟩
  | cons q t ih =>
    intro e h
    have step := markPipePath_not_mem e q c (h q (List.mem_cons_self _ _))
    have hrec := ih (markPipePath e q) (fun r hr => h r (List.mem_cons_of_mem _ hr))
    exact ⟨hrec.1.trans step.1, hrec.2.trans step.2⟩

/-- Marking a whole pipe list leaves an out-of-bounds cell alone. -/
theorem markAll_invalid (c : Pt) :
    ∀ (ps : List Pipe) (e : Env), isValidCell e.size c = false →
      (markAll e ps).grid c = e.grid c ∧ (markAll e ps).occ c = e.occ c := by
  intro ps
  induction ps with
  | nil => intro e _; exact ⟨rfl, rfl⟩
  | cons q t ih =>
    intro e hinv
    have step : (markPipePath e q).grid c = e.grid c ∧ (markPipePath e q).occ c = e.occ c := by
      unfold markPipePath
      cases q.path with
      | none => exact ⟨rfl, rfl⟩
      | some pa => exact foldl_markCell_untouched q.id _ e c (Or.inr hinv)
    have hrec := ih (markPipePath e q) (by rw [markPipePath_size]; exact hinv)
    exact ⟨hrec.1.trans step.1, hrec.2.trans step.2⟩

/-- Unmarking a whole pipe list keeps an unowned cell's state. -/
theorem unmarkAll_occ_none (c : Pt) :
    ∀ (ps : List Pipe) (e : Env), e.occ c = none →
      (unmarkAll e ps).grid c = e.grid c ∧ (unmarkAll e ps).occ c = none := by
  intro ps
  induction ps with
  | nil => intro e h; exact ⟨rfl, h⟩
  | cons q t ih =>
    intro e h
    have step := unmarkPipePath_occ_none e q c h
    have hrec := ih (unmarkPipePath e q) step.2
    exact ⟨hrec.1.trans step.1, hrec.2⟩

/-- After the mark phase, a valid cell covered by some listed pipe is owned by
one of the listed pipes that covers it. -/
theorem markAll_owner (c : Pt) :
    ∀ (ps : List Pipe) (e : Env), isValidCell e.size c = true →
      (∃ q ∈ ps, c ∈ getOccupiedCells q) →
      ∃ q ∈ ps, c ∈ getOccupiedCells q ∧ (markAll e ps).occ c = some q.id := by
  intro ps
  induction ps with
  | nil => intro e _ h; simp at h
  | cons q t ih =>
    intro e hv hex
    by_cases hext : ∃ r ∈ t, c ∈ getOccupiedCells r
    · obtain ⟨r, hrt, hrc, hocc⟩ := ih (markPipePath e q) (by
        rw [markPipePath_size]; exact hv) hext
      exact ⟨r, List.mem_cons_of_mem _ hrt, hrc, hocc⟩
    · have hcq : c ∈ getOccupiedCells q := by
        obtain ⟨r, hr, hrc⟩ := hex
        rcases List.mem_cons.mp hr with rfl | hrt
        · exact hrc
        · exact absurd ⟨r, hrt, hrc⟩ hext
      refine ⟨q, List.mem_cons_self _ _, hcq, ?_⟩
      have hmark : (markPipePath e q).occ c = some q.id := by
        unfold markPipePath
        cases hp : q.path with
        | none => unfold getOccupiedCells at hcq; rw [hp] at hcq; simp at hcq
        | some pa => exact (foldl_markCell_writes q.id _ e c hcq hv).2
      have hrec := markAll_untouched c t (markPipePath e q)
        (fun r hr => fun hrc => hext ⟨r, hr, hrc⟩)
      exact hrec.2.trans hmark

/-- The unmark phase restores a cell that is either already clear or is owned
by one of the listed pipes through a covering path: afterwards it is free and
unowned. -/
theorem unmarkAll_clears (c : Pt) :
    ∀ (ps : List Pipe) (e : Env),
      ((e.occ c = none ∧ e.grid c = .free) ∨
        (∃ q ∈ ps, c ∈ getOccupiedCells q ∧ e.occ c = some q.id)) →
      (unmarkAll e ps).occ c = none ∧ (unmarkAll e ps).grid c = .free := by
  intro ps
  induction ps with
  | nil =>
    intro e h
    rcases h with ⟨h1, h2⟩ | ⟨q, hq, -, -⟩
    · exact ⟨h1, h2⟩
    · simp at hq
  | cons q t ih =>
    intro e h
    rcases h with ⟨h1, h2⟩ | ⟨r, hr, hrc, hown⟩
    · -- already clear: the head unmark cannot touch an unowned cell
      have step := unmarkPipePath_occ_none e q c h1
      exact ih (unmarkPipePath e q) (Or.inl ⟨step.2, step.1.trans h2⟩)
    · by_cases hq : e.occ c = some q.id
      · by_cases hcq : c ∈ getOccupiedCells q
        · -- the head pipe owns the cell and covers it: it clears the cell now
          have step : (unmarkPipePath e q).grid c = .free ∧
              (unmarkPipePath e q).occ c = none := by
            unfold unmarkPipePath
            cases hp : q.path with
            | none => unfold getOccupiedCells at hcq; rw [hp] at hcq; simp at hcq
            | some pa => exact foldl_unmarkCell_clears q.id _ e c hcq hq
          exact ih (unmarkPipePath e q) (Or.inl ⟨step.2, step.1⟩)
        · -- owned by the head id but not covered: untouched now, and the owner
          -- pipe (which covers the cell) sits in the tail
          have step := unmarkPipePath_not_mem e q c hcq
          have hrt : r ∈ t := by
            rcases List.mem_cons.mp hr with rfl | hrt
            · exact absurd hrc hcq
            · exact hrt
          exact ih (unmarkPipePath e q) (Or.inr ⟨r, hrt, hrc, step.2.trans hown⟩)
      · -- the head pipe does not own the cell: its unmark leaves it alone
        have step : (unmarkPipePath e q).grid c = e.grid c ∧
            (unmarkPipePath e q).occ c = e.occ c := by
          unfold unmarkPipePath
          cases q.path with
          | none => exact ⟨rfl, rfl⟩
          | some pa => exact foldl_unmarkCell_wrong q.id _ e c hq
        have hrt : r ∈ t := by
          rcases List.mem_cons.mp hr with rfl | hrt
          · exact absurd hown hq
          · exact hrt
        exact ih (unmarkPipePath e q) (Or.inr ⟨r, hrt, hrc, step.2.trans hown⟩)

/-- Unmarking a whole pipe list leaves a cell alone when no listed pipe's path
covers it. -/
theorem unmarkAll_untouched (c : Pt) :
    ∀ (ps : List Pipe) (e : Env), (∀ q ∈ ps, c ∉ getOccupiedCells q) →
      (unmarkAll e ps).grid c = e.grid c ∧ (unmarkAll e ps).occ c = e.occ c := by
  intro ps
  induction ps with
  | nil => intro e _; exact ⟨rfl, rfl⟩
  | cons q t ih =>
    intro e h
    have step := unmarkPipePath_not_mem e q c (h q (List.mem_cons_self _ _))
    have hrec := ih (unmarkPipePath e q) (fun r hr => h r (List.mem_cons_of_mem _ hr))
    exact ⟨hrec.1.trans step.1, hrec.2.trans step.2⟩

/-- Claim C3 amended: for every call to the low-level solver — returning a
path, failing on an empty open set, or timing out (the search itself never
writes to the environment, so an abnormal exit through the `finally` block has
the same bracketed effect) — the occupancy grid and the pipe-owner map after
the call equal their state before the call, PROVIDED every path cell of every
obstacle pipe is unowned and (when in bounds) free at entry.  Every in-contract
snapshot satisfies this (router paths avoid obstacle and marked cells), but an
obstacle pipe whose path crosses an obstacle voxel is restored to free, not
obstacle — see the counterexample. -/
theorem C3_amended (e : Env) (fuel : ℕ) (p : Pipe) (obs : List Pipe)
    (h : ∀ q ∈ obs, ∀ cc ∈ getOccupiedCells q,
        e.occ cc = none ∧ (isValidCell e.size cc = true → e.grid cc = .free)) (c : Pt) :
    ((solverSolve e fuel p obs).2).grid c = e.grid c ∧
      ((solverSolve e fuel p obs).2).occ c = e.occ c := by
  show (unmarkAll (markAll e obs) obs).grid c = e.grid c ∧
    (unmarkAll (markAll e obs) obs).occ c = e.occ c
  by_cases hc : ∃ q ∈ obs, c ∈ getOccupiedCells q
  · obtain ⟨q0, hq0, hcq0⟩ := hc
    have hocc : e.occ c = none := (h q0 hq0 c hcq0).1
    by_cases hv : isValidCell e.size c = true
    · have hfree : e.grid c = .free := (h q0 hq0 c hcq0).2 hv
      obtain ⟨q, hq, hcq, hown⟩ := markAll_owner c obs e hv ⟨q0, hq0, hcq0⟩
      have hcl := unmarkAll_clears c obs (markAll e obs) (Or.inr ⟨q, hq, hcq, hown⟩)
      exact ⟨hcl.2.trans hfree.symm, hcl.1.trans hocc.symm⟩
    · have hinv : isValidCell e.size c = false := by
        cases hb : isValidCell e.size c
        · rfl
        · exact absurd hb hv
      have hm := markAll_invalid c obs e hinv
      have hstay := unmarkAll_occ_none c obs (markAll e obs) (hm.2.trans hocc)
      exact ⟨hstay.1.trans hm.1, hstay.2.trans hocc.symm⟩
  · push_neg at hc
    have hm := markAll_untouched c obs e hc
    have hu := unmarkAll_untouched c obs (markAll e obs) hc
    exact ⟨hu.1.trans hm.1, hu.2.trans hm.2⟩

/-- C3 counterexample environment: a 1×1×1 grid whose only cell is an
obstacle; and an obstacle pipe whose path crosses that obstacle cell. -/
def envC3 : Env := addObstacle ⟨(1, 1, 1), fun _ => .free, fun _ => none⟩ ⟨(0, 0, 0), (0, 0, 0)⟩

def pipeC3 : Pipe :=
  { id := 7, start := (0, 0, 0), goal := (0, 0, 0), diameter := 1, path := some [(0, 0, 0)] }

/-- Counterexample to claim C3 as stated: calling the solver with an obstacle
pipe whose path crosses an obstacle voxel ends with that voxel classified free
— the occupancy grid after the call differs from its state before. -/
theorem C3_counterexample :
    envC3.grid (0, 0, 0) = .obstacle ∧
    ((solverSolve envC3 1 pipeC3 [pipeC3]).2).grid (0, 0, 0) = .free := by decide

/-- C3 witness scenario: one routed obstacle pipe on a free cell. -/
def envC3w : Env := ⟨(2, 1, 1), fun _ => .free, fun _ => none⟩

def pipeC3w : Pipe :=
  { id := 2, start := (1, 0, 0), goal := (1, 0, 0), diameter := 1, path := some [(1, 0, 0)] }

/-- Witness for the amended C3: with an in-contract obstacle pipe the
environment is restored at the marked cell. -/
theorem C3_witness :
    ((solverSolve envC3w 3 pipeC3 [pipeC3w]).2).grid (1, 0, 0) = envC3w.grid (1, 0, 0) ∧
      ((solverSolve envC3w 3 pipeC3 [pipeC3w]).2).occ (1, 0, 0) = envC3w.occ (1, 0, 0) :=
  C3_amended envC3w 3 pipeC3 [pipeC3w] (by decide) (1, 0, 0)

/-! ### Claim C9 -/

/-- After the mark phase, a valid cell covered by some listed pipe is not
classified free. -/
theorem markAll_covered_grid (c : Pt) :
    ∀ (ps : List Pipe) (e : Env), (∃ q ∈ ps, c ∈ getOccupiedCells q) →
      isValidCell e.size c = true → (markAll e ps).grid c ≠ .free := by
  intro ps
  induction ps with
  | nil => intro e h _; simp at h
  | cons q t ih =>
    intro e hex hv
    show (markAll (markPipePath e q) t).grid c ≠ .free
    by_cases hcq : c ∈ getOccupiedCells q
    · have hq : (markPipePath e q).grid c = .pipe := by
        unfold markPipePath
        cases hp : q.path with
        | none => unfold getOccupiedCells at hcq; rw [hp] at hcq; simp at hcq
        | some pa => exact (foldl_markCell_writes q.id _ e c hcq hv).1
      exact markAll_nonfree c t _ (by rw [hq]; simp)
    · obtain ⟨r, hr, hrc⟩ := hex
      have hrt : r ∈ t := by
        rcases List.mem_cons.mp hr with rfl | hrt
        · exact absurd hrc hcq
        · exact hrt
      exact ih (markPipePath e q) ⟨r, hrt, hrc⟩ (by rw [markPipePath_size]; exact hv)

/-- A cell covered by some marked pipe is never free after the mark phase. -/
theorem markAll_covered_not_free (c : Pt) (ps : List Pipe) (e : Env)
    (hcov : ∃ q ∈ ps, c ∈ getOccupiedCells q) :
    isFree (markAll e ps) c = false := by
  by_cases hv : isValidCell e.size c = true
  · have hgrid := markAll_covered_grid c ps e hcov hv
    simp [isFree, hgrid]
  · have hinv : isValidCell (markAll e ps).size c = false := by
      rw [markAll_size]
      cases hb : isValidCell e.size c
      · rfl
      · exact absurd hb hv
    simp [isFree, hinv]

/-- The later-routed pipe avoids the earlier one at every vertex after its
start: the relation claim C9 actually guarantees. -/
def routedAvoids (p q : Pipe) : Prop :=
  ∀ pa, q.path = some pa → ∀ v ∈ pa.drop 1, v ∉ getOccupiedCells p

/-- Invariant of the FixOrder routing loop: the routed list stays pairwise
non-overlapping in the `routedAvoids` sense, because each new path is searched
with every previously routed pipe marked on the environment. -/
theorem fixOrderGo_pairwise (fuel : ℕ) :
    ∀ (todo : List Pipe) (e : Env) (routed : List Pipe),
      routed.Pairwise routedAvoids →
      ((fixOrderGo fuel todo e routed).2).Pairwise routedAvoids := by
  intro todo
  induction todo with
  | nil => intro e routed hr; exact hr
  | cons p rest ih =>
    intro e routed hr
    rw [fixOrderGo]
    rcases hsv : solverSolve e fuel p routed with ⟨res, e2⟩
    cases res with
    | none => exact ih e2 routed hr
    | some path =>
      refine ih e2 (routed ++ [setPath p (some path)]) ?_
      rw [List.pairwise_append]
      refine ⟨hr, by simp [routedAvoids], ?_⟩
      intro a ha b hb
      simp only [List.mem_singleton] at hb
      subst hb
      intro pa hpa v hv
      rw [setPath_path] at hpa
      cases hpa
      have hsearch : aStarSearch (markAll e routed) fuel p.start p.goal p.diameter =
          some path := congrArg Prod.fst hsv
      have hfree := (aStarSearch_spec (markAll e routed) fuel p.start p.goal p.diameter
        path hsearch).2 v hv
      intro hvcells
      have hnf := markAll_covered_not_free v routed e ⟨a, ha, hvcells⟩
      rw [hfree] at hnf
      cases hnf

/-- Claim C9 amended: in every FixOrder run, for pipes p routed before q, no
vertex of q's path other than its first (q's start, which the search never
checks) equals a vertex of p's path. -/
theorem C9_amended (e : Env) (fuel : ℕ) (pipes : List Pipe) :
    (fixOrderRouted e fuel pipes).Pairwise routedAvoids :=
  fixOrderGo_pairwise fuel (sortPipesByCost pipes) e [] List.Pairwise.nil

/-- C9 concrete scenario: a 3×1×1 corridor; the long pipe routes first and
covers the corridor, then a degenerate pipe starts on an occupied voxel. -/
def envC9 : Env := ⟨(3, 1, 1), fun _ => .free, fun _ => none⟩

def pipeC9a : Pipe := { id := 0, start := (0, 0, 0), goal := (2, 0, 0), diameter := 1 }

def pipeC9b : Pipe := { id := 1, start := (1, 0, 0), goal := (1, 0, 0), diameter := 1 }

/-- Counterexample to claim C9 as stated: both pipes route successfully, pipe 0
before pipe 1, and pipe 1's (only) path vertex (1,0,0) equals a path vertex of
pipe 0 — a later-routed pipe does occupy a voxel taken by an earlier one, via
its never-checked start vertex. -/
theorem C9_counterexample :
    (fixOrderRouted envC9 20 [pipeC9a, pipeC9b]).map (fun p => (p.id, p.path)) =
      ([(0, some [(0, 0, 0), (1, 0, 0), (2, 0, 0)]), (1, some [(1, 0, 0)])] :
        List (ℕ × Option (List Pt))) ∧
    ((1 : ℤ), (0 : ℤ), (0 : ℤ)) ∈
      ([(0, 0, 0), (1, 0, 0), (2, 0, 0)] : List Pt) := by decide

/-- C9 witness scenario: two parallel pipes in a 3×3×1 grid. -/
def envC9w : Env := ⟨(3, 3, 1), fun _ => .free, fun _ => none⟩

def pipeC9c : Pipe := { id := 0, start := (0, 0, 0), goal := (2, 0, 0), diameter := 1 }

def pipeC9d : Pipe := { id := 1, start := (0, 2, 0), goal := (2, 2, 0), diameter := 1 }

/-- Witness for the amended C9 on the parallel-pipes run. -/
theorem C9_witness :
    (fixOrderRouted envC9w 60 [pipeC9c, pipeC9d]).Pairwise routedAvoids :=
  C9_amended envC9w 60 [pipeC9c, pipeC9d]

/-! ### Claim C7 -/

/-- The source comparator `Plan.is_better_than` against an existing plan is the
strict lexicographic order on (num_missing, total_cost). -/
theorem isBetterThan_iff (a b : Plan) :
    isBetterThan a (some b) = true ↔
      numMissing a < numMissing b ∨
        (numMissing a = numMissing b ∧ totalCost a < totalCost b) := by
  show (if (quality a).1 < (quality b).1 then true
        else if (quality a).1 > (quality b).1 then false
        else decide ((quality a).2 < (quality b).2)) = true ↔ _
  unfold quality
  by_cases h1 : numMissing a < numMissing b
  · simp [h1]
  · by_cases h2 : numMissing a > numMissing b
    · have hne : numMissing a ≠ numMissing b := by omega
      simp [h1, h2, hne]
    · have heq : numMissing a = numMissing b := by omega
      simp [h1, h2, heq]

/-- Every value assigned to `best_plan` during the DFS loop is strictly better
than the previous one: the trace of assignments, prefixed with the incoming
best, is a chain under `is_better_than`. -/
theorem pbsLoop_trace_chain (router : Pipe → List Pipe → Option (List Pt))
    (select : Plan → Option Conflict) (mm : WithTop ℕ) :
    ∀ (fuel : ℕ) (stack : List CTNodeL) (best : Option Plan),
      List.Chain' (fun a b => isBetterThan b (some a) = true)
        (best.toList ++ (pbsLoop router select mm fuel stack best).2) := by
  intro fuel
  induction fuel with
  | zero =>
    intro stack best
    show List.Chain' _ (best.toList ++ [])
    cases best <;> simp
  | succ f ih =>
    intro stack best
    cases stack with
    | nil =>
      show List.Chain' _ (best.toList ++ [])
      cases best <;> simp
    | cons node rest =>
      rw [pbsLoop]
      by_cases hguard : (best.isSome && !(isBetterThan node.plan best)) = true
      · rw [if_pos hguard]; exact ih rest best
      · rw [if_neg hguard]
        by_cases hconf : (!(hasConflicts node.plan)) = true
        · rw [if_pos hconf]
          by_cases hfeas : (numMissing node.plan : WithTop ℕ) ≤ mm
          · rw [if_pos hfeas]
            show List.Chain' _ (best.toList ++
              node.plan :: (pbsLoop router select mm f rest (some node.plan)).2)
            have hch := ih rest (some node.plan)
            cases best with
            | none => simpa using hch
            | some b =>
              have hbet : isBetterThan node.plan (some b) = true := by
                simp only [Option.isSome_some, Bool.true_and, Bool.not_eq_true',
                  Bool.not_eq_false] at hguard
                exact hguard
              simp only [Option.toList_some, List.singleton_append, List.chain'_cons]
              refine ⟨hbet, ?_⟩
              simpa using hch
          · rw [if_neg hfeas]; exact ih rest best
        · rw [if_neg hconf]
          exact ih ((sortChildrenDesc (branchNode router mm node (select node.plan))).reverse
            ++ rest) best

/-- Claim C7: during any single PBS run (any router, any conflict-selection
oracle, any budget, any fuel, any starting stack and incumbent), each
successive value assigned to the best-so-far plan is strictly better than the
previous one under `is_better_than`, which is exactly the strict lexicographic
order on (num_missing, total_cost); best is never replaced by an equal or
worse plan. -/
theorem C7_theorem :
    (∀ (router : Pipe → List Pipe → Option (List Pt)) (select : Plan → Option Conflict)
        (mm : WithTop ℕ) (fuel : ℕ) (stack : List CTNodeL) (best : Option Plan),
      List.Chain' (fun a b => isBetterThan b (some a) = true)
        (best.toList ++ (pbsLoop router select mm fuel stack best).2)) ∧
    (∀ a b : Plan, isBetterThan a (some b) = true ↔
      numMissing a < numMissing b ∨
        (numMissing a = numMissing b ∧ totalCost a < totalCost b)) :=
  ⟨fun router select mm => pbsLoop_trace_chain router select mm, isBetterThan_iff⟩

/-- Witness for C7 at a concrete loop run and a concrete plan pair. -/
theorem C7_witness :
    List.Chain' (fun a b => isBetterThan b (some a) = true)
      ((some planC2).toList ++
        (pbsLoop (fun _ _ => none) (fun _ => none) 0 3 [] (some planC2)).2) ∧
    (isBetterThan planC2 (some planC2) = true ↔
      numMissing planC2 < numMissing planC2 ∨
        (numMissing planC2 = numMissing planC2 ∧ totalCost planC2 < totalCost planC2)) :=
  ⟨C7_theorem.1 (fun _ _ => none) (fun _ => none) 0 3 [] (some planC2),
   C7_theorem.2 planC2 planC2⟩

/-! ### Claim C8: structure of the constraint graph -/

theorem mem_addIfAbsent (l : List ℕ) (x y : ℕ) : y ∈ addIfAbsent l x ↔ y ∈ l ∨ y = x := by
  unfold addIfAbsent
  by_cases h : x ∈ l
  · simp only [h, if_pos]
    constructor
    · exact Or.inl
    · rintro (hy | rfl)
      · exact hy
      · exact h
  · simp [h]

theorem nodesOf_spec (cs : ConstraintSet) (y : ℕ) :
    y ∈ nodesOf cs ↔ ∃ c ∈ cs, c.higher = y ∨ c.lower = y := by
  have main : ∀ (l : List Constraint) (acc : List ℕ),
      y ∈ l.foldl (fun acc c => addIfAbsent (addIfAbsent acc c.higher) c.lower) acc ↔
        y ∈ acc ∨ ∃ c ∈ l, c.higher = y ∨ c.lower = y := by
    intro l
    induction l with
    | nil => intro acc; simp
    | cons c t ih =>
      intro acc
      rw [List.foldl_cons, ih]
      simp only [mem_addIfAbsent, List.mem_cons]
      constructor
      · rintro (((h | rfl) | rfl) | ⟨d, hd, hdy⟩)
        · exact Or.inl h
        · exact Or.inr ⟨c, Or.inl rfl, Or.inl rfl⟩
        · exact Or.inr ⟨c, Or.inl rfl, Or.inr rfl⟩
        · exact Or.inr ⟨d, Or.inr hd, hdy⟩
      · rintro (h | ⟨d, rfl | hd, hdy⟩)
        · exact Or.inl (Or.inl (Or.inl h))
        · rcases hdy with rfl | rfl
          · exact Or.inl (Or.inl (Or.inr rfl))
          · exact Or.inl (Or.inr rfl)
        · exact Or.inr ⟨d, hd, hdy⟩
  rw [nodesOf, main]
  simp

theorem mem_adjOf (cs : ConstraintSet) (n b : ℕ) : b ∈ adjOf cs n ↔ edgeOf cs n b := by
  unfold adjOf edgeOf
  simp only [List.mem_map, List.mem_filter, beq_iff_eq]
  constructor
  · rintro ⟨c, ⟨hc, hh⟩, rfl⟩
    exact ⟨c, hc, hh, rfl⟩
  · rintro ⟨c, hc, hh, rfl⟩
    exact ⟨c, ⟨hc, hh⟩, rfl⟩

theorem edge_mem_nodesOf (cs : ConstraintSet) (a b : ℕ) (h : edgeOf cs a b) :
    a ∈ nodesOf cs ∧ b ∈ nodesOf cs := by
  obtain ⟨c, hc, hh, hl⟩ := h
  exact ⟨(nodesOf_spec cs a).mpr ⟨c, hc, Or.inl hh⟩,
         (nodesOf_spec cs b).mpr ⟨c, hc, Or.inr hl⟩⟩

/-- The grey/black partition: black nodes are visited and not on the stack. -/
def Blacks (v recStack : List ℕ) (x : ℕ) : Prop := x ∈ v ∧ x ∉ recStack

/-- A predicate closed under the constraint edges. -/
def ClosedP (cs : ConstraintSet) (P : ℕ → Prop) : Prop :=
  ∀ b, P b → ∀ m, edgeOf cs b m → P m

/-- No element of the predicate lies on a directed cycle. -/
def AcycP (cs : ConstraintSet) (P : ℕ → Prop) : Prop :=
  ∀ b, P b → ¬ Relation.TransGen (edgeOf cs) b b

theorem closedP_congr (cs : ConstraintSet) {P Q : ℕ → Prop} (h : ∀ x, P x ↔ Q x) :
    ClosedP cs P → ClosedP cs Q := by
  intro hc b hb m hedge
  exact (h m).mp (hc b ((h b).mpr hb) m hedge)

theorem acycP_congr (cs : ConstraintSet) {P Q : ℕ → Prop} (h : ∀ x, P x ↔ Q x) :
    AcycP cs P → AcycP cs Q := by
  intro ha b hb
  exact ha b ((h b).mpr hb)

/-- Reachability stays inside a closed predicate. -/
theorem reflTransGen_closedP (cs : ConstraintSet) {P : ℕ → Prop} (hP : ClosedP cs P)
    {x y : ℕ} (hx : P x) (h : Relation.ReflTransGen (edgeOf cs) x y) : P y := by
  induction h with
  | refl => exact hx
  | tail _ hstep ih => exact hP _ ih _ hstep

/-- The number of graph nodes not yet visited, the measure that bounds the DFS
recursion depth. -/
def ucount (cs : ConstraintSet) (v : List ℕ) : ℕ :=
  ((nodesOf cs).filter (fun x => decide (¬ x ∈ v))).length

theorem ucount_mono (cs : ConstraintSet) {v w : List ℕ} (h : ∀ x ∈ v, x ∈ w) :
    ucount cs w ≤ ucount cs v := by
  unfold ucount
  refine List.Sublist.length_le (List.monotone_filter_right _ ?_)
  intro a ha
  simp only [decide_eq_true_eq] at ha ⊢
  exact fun hav => ha (h a hav)

/-- Length of a filtered cons, as a sum. -/
theorem length_filter_cons_bool (p : ℕ → Bool) (a : ℕ) (t : List ℕ) :
    (List.filter p (a :: t)).length =
      (List.filter p t).length + (if p a = true then 1 else 0) := by
  rw [List.filter_cons]
  cases h : p a <;> simp [h]

theorem ucount_cons_lt (cs : ConstraintSet) (v : List ℕ) (n : ℕ)
    (hn : n ∈ nodesOf cs) (hnv : n ∉ v) : ucount cs (n :: v) < ucount cs v := by
  unfold ucount
  have main : ∀ (u : List ℕ), n ∈ u →
      (u.filter (fun x => decide (¬ x ∈ n :: v))).length <
        (u.filter (fun x => decide (¬ x ∈ v))).length := by
    intro u
    induction u with
    | nil => intro h; simp at h
    | cons a t ih =>
      intro hmem
      rw [length_filter_cons_bool, length_filter_cons_bool]
      by_cases han : a = n
      · subst han
        have h1 : (decide (¬ a ∈ a :: v)) = false := by simp
        have h2 : (decide (¬ a ∈ v)) = true := by simpa using hnv
        rw [h1, h2]
        have hle : (t.filter (fun x => decide (¬ x ∈ a :: v))).length ≤
            (t.filter (fun x => decide (¬ x ∈ v))).length := by
          refine List.Sublist.length_le (List.monotone_filter_right _ ?_)
          intro b hb
          simp only [decide_eq_true_eq, List.mem_cons, not_or] at hb ⊢
          exact hb.2
        simp only [Bool.false_eq_true, if_false, if_pos]
        omega
      · have hnt : n ∈ t := by
          rcases List.mem_cons.mp hmem with h | h
          · exact absurd h.symm han
          · exact h
        have hsame : (decide (¬ a ∈ n :: v)) = (decide (¬ a ∈ v)) := by
          simp only [List.mem_cons, not_or, decide_not]
          by_cases hv : a ∈ v
          · simp [hv]
          · simp [hv, han]
        rw [hsame]
        have := ih hnt
        omega
  exact main (nodesOf cs) hn

/-! ### Claim C8: the DFS only ever grows the visited set -/

/-- Monotonicity statement for `dfsVisit` at a given fuel. -/
def VisitMonoSpec (adj : ℕ → List ℕ) (f : ℕ) : Prop :=
  ∀ (node : ℕ) (v recStack : List ℕ) (b : Bool) (v2 : List ℕ),
    dfsVisit adj f node v recStack = (b, v2) → ∀ x ∈ v, x ∈ v2

/-- Monotonicity statement for `dfsNbrs` at a given fuel. -/
def NbrsMonoSpec (adj : ℕ → List ℕ) (f : ℕ) : Prop :=
  ∀ (nbrs : List ℕ) (v recStack : List ℕ) (b : Bool) (v2 : List ℕ),
    dfsNbrs (dfsVisit adj f) nbrs v recStack = (b, v2) → ∀ x ∈ v, x ∈ v2

theorem dfsNbrs_mono_of_visit (adj : ℕ → List ℕ) (f : ℕ) (hv : VisitMonoSpec adj f) :
    NbrsMonoSpec adj f := by
  intro nbrs
  induction nbrs with
  | nil =>
    intro v recStack b v2 h x hx
    rw [dfsNbrs] at h
    cases h
    exact hx
  | cons m rest ih =>
    intro v recStack b v2 h x hx
    rw [dfsNbrs] at h
    by_cases hmv : m ∉ v
    · rw [if_pos hmv] at h
      cases hdv : dfsVisit adj f m v recStack with
      | mk b1 v1 =>
        rw [hdv] at h
        cases b1 with
        | true =>
          cases h
          exact hv m v recStack _ _ hdv x hx
        | false =>
          exact ih v1 recStack b v2 h x (hv m v recStack false v1 hdv x hx)
    · rw [if_neg hmv] at h
      by_cases hmr : m ∈ recStack
      · rw [if_pos hmr] at h
        cases h
        exact hx
      · rw [if_neg hmr] at h
        exact ih v recStack b v2 h x hx

theorem dfsVisit_mono (adj : ℕ → List ℕ) : ∀ f, VisitMonoSpec adj f := by
  intro f
  induction f with
  | zero =>
    intro node v recStack b v2 h x hx
    rw [dfsVisit] at h
    cases h
    exact hx
  | succ f ih =>
    intro node v recStack b v2 h x hx
    rw [dfsVisit] at h
    exact dfsNbrs_mono_of_visit adj f ih (adj node) (node :: v) (node :: recStack) b v2 h x
      (List.mem_cons_of_mem _ hx)

theorem dfsNbrs_mono (adj : ℕ → List ℕ) (f : ℕ) : NbrsMonoSpec adj f :=
  dfsNbrs_mono_of_visit adj f (dfsVisit_mono adj f)

/-! ### Claim C8: a false verdict leaves a closed, cycle-free black set -/

/-- Pushing the current node on both the visited list and the stack does not
change the black set. -/
theorem blacks_push (node : ℕ) (v recStack : List ℕ) (hnv : node ∉ v) :
    ∀ x, Blacks (node :: v) (node :: recStack) x ↔ Blacks v recStack x := by
  intro x
  unfold Blacks
  simp only [List.mem_cons, not_or]
  constructor
  · rintro ⟨hx1, hx2, hx3⟩
    rcases hx1 with rfl | hx1
    · exact absurd rfl hx2
    · exact ⟨hx1, hx3⟩
  · rintro ⟨hx1, hx2⟩
    exact ⟨Or.inr hx1, fun heq => hnv (heq ▸ hx1), hx2⟩

/-- Completeness invariant for `dfsVisit`: a false verdict extends the visited
set by the node, keeps the black set closed under edges and keeps every black
node off all directed cycles. -/
def VisitFalseSpec (cs : ConstraintSet) (f : ℕ) : Prop :=
  ∀ (node : ℕ) (v recStack v2 : List ℕ),
    dfsVisit (adjOf cs) f node v recStack = (false, v2) →
    node ∉ v → (∀ r ∈ recStack, r ∈ v) →
    ClosedP cs (Blacks v recStack) → AcycP cs (Blacks v recStack) →
    (∀ x ∈ v, x ∈ v2) ∧ node ∈ v2 ∧
      ClosedP cs (Blacks v2 recStack) ∧ AcycP cs (Blacks v2 recStack)

/-- Completeness invariant for the neighbor loop. -/
def NbrsFalseSpec (cs : ConstraintSet) (f : ℕ) : Prop :=
  ∀ (nbrs : List ℕ) (v recStack v2 : List ℕ),
    dfsNbrs (dfsVisit (adjOf cs) f) nbrs v recStack = (false, v2) →
    (∀ r ∈ recStack, r ∈ v) →
    ClosedP cs (Blacks v recStack) → AcycP cs (Blacks v recStack) →
    (∀ x ∈ v, x ∈ v2) ∧ (∀ m ∈ nbrs, m ∈ v2 ∧ m ∉ recStack) ∧
      ClosedP cs (Blacks v2 recStack) ∧ AcycP cs (Blacks v2 recStack)

theorem dfsNbrs_false_of_visit (cs : ConstraintSet) (f : ℕ) (hv : VisitFalseSpec cs f) :
    NbrsFalseSpec cs f := by
  intro nbrs
  induction nbrs with
  | nil =>
    intro v recStack v2 h hrec hcl hac
    rw [dfsNbrs] at h
    cases h
    exact ⟨fun x hx => hx, by simp, hcl, hac⟩
  | cons m rest ih =>
    intro v recStack v2 h hrec hcl hac
    rw [dfsNbrs] at h
    by_cases hmv : m ∉ v
    · rw [if_pos hmv] at h
      cases hdv : dfsVisit (adjOf cs) f m v recStack with
      | mk b1 v1 =>
        rw [hdv] at h
        cases b1 with
        | true => simp at h
        | false =>
          obtain ⟨hm1, hm2, hcl1, hac1⟩ := hv m v recStack v1 hdv hmv hrec hcl hac
          obtain ⟨hmo, hrest, hcl2, hac2⟩ := ih v1 recStack v2 h
            (fun r hr => hm1 r (hrec r hr)) hcl1 hac1
          refine ⟨fun x hx => hmo x (hm1 x hx), ?_, hcl2, hac2⟩
          intro x hx
          rcases List.mem_cons.mp hx with rfl | hx2
          · exact ⟨hmo x hm2, fun hxr => hmv (hrec x hxr)⟩
          · exact hrest x hx2
    · rw [if_neg hmv] at h
      rw [Classical.not_not] at hmv
      by_cases hmr : m ∈ recStack
      · rw [if_pos hmr] at h
        simp at h
      · rw [if_neg hmr] at h
        obtain ⟨hmo, hrest, hcl2, hac2⟩ := ih v recStack v2 h hrec hcl hac
        refine ⟨hmo, ?_, hcl2, hac2⟩
        intro x hx
        rcases List.mem_cons.mp hx with rfl | hx2
        · exact ⟨hmo x hmv, hmr⟩
        · exact hrest x hx2

theorem dfsVisit_false (cs : ConstraintSet) : ∀ f, VisitFalseSpec cs f := by
  intro f
  induction f with
  | zero =>
    intro node v recStack v2 h
    rw [dfsVisit] at h
    simp at h
  | succ f ih =>
    intro node v recStack v2 h hnv hrec hcl hac
    rw [dfsVisit] at h
    have hpush := blacks_push node v recStack hnv
    obtain ⟨hmo, hadj, hcl1, hac1⟩ :=
      dfsNbrs_false_of_visit cs f ih (adjOf cs node) (node :: v) (node :: recStack) v2 h
        (by
          intro r hr
          rcases List.mem_cons.mp hr with rfl | hr2
          · exact List.mem_cons_self _ _
          · exact List.mem_cons_of_mem _ (hrec r hr2))
        (closedP_congr cs (fun x => (hpush x).symm) hcl)
        (acycP_congr cs (fun x => (hpush x).symm) hac)
    have hnode2 : node ∈ v2 := hmo node (List.mem_cons_self _ _)
    have hnoderec : node ∉ recStack := fun hr => hnv (hrec node hr)
    have hsplit : ∀ x, Blacks v2 recStack x ↔ Blacks v2 (node :: recStack) x ∨ x = node := by
      intro x
      unfold Blacks
      simp only [List.mem_cons, not_or]
      constructor
      · rintro ⟨hx1, hx2⟩
        by_cases hxn : x = node
        · exact Or.inr hxn
        · exact Or.inl ⟨hx1, hxn, hx2⟩
      · rintro (⟨hx1, _, hx3⟩ | rfl)
        · exact ⟨hx1, hx3⟩
        · exact ⟨hnode2, hnoderec⟩
    refine ⟨fun x hx => hmo x (List.mem_cons_of_mem _ hx), hnode2, ?_, ?_⟩
    · intro b hb m hedge
      rcases (hsplit b).mp hb with hb2 | rfl
      · exact (hsplit m).mpr (Or.inl (hcl1 b hb2 m hedge))
      · have hm := hadj m ((mem_adjOf cs b m).mpr hedge)
        exact (hsplit m).mpr (Or.inl ⟨hm.1, hm.2⟩)
    · intro b hb hcyc
      rcases (hsplit b).mp hb with hb2 | rfl
      · exact hac1 b hb2 hcyc
      · obtain ⟨c, hbc, hcb⟩ := Relation.TransGen.head'_iff.mp hcyc
        have hc := hadj c ((mem_adjOf cs b c).mpr hbc)
        have hcB : Blacks v2 (b :: recStack) c := ⟨hc.1, hc.2⟩
        have hbB := reflTransGen_closedP cs hcl1 hcB hcb
        exact hbB.2 (List.mem_cons_self _ _)

/-- Outer-loop completeness: a true verdict of the consistency scan means no
node reachable through the scan lies on a directed cycle. -/
theorem isConsistentGo_acyclic (cs : ConstraintSet) :
    ∀ (l v : List ℕ),
      isConsistentGo cs l v = true →
      ClosedP cs (Blacks v []) → AcycP cs (Blacks v []) →
      ∀ n, n ∈ l ∨ n ∈ v → ¬ Relation.TransGen (edgeOf cs) n n := by
  intro l
  induction l with
  | nil =>
    intro v _ _ hac n hn hcyc
    rcases hn with hn | hn
    · simp at hn
    · exact hac n ⟨hn, by simp⟩ hcyc
  | cons a rest ih =>
    intro v h hcl hac n hn hcyc
    rw [isConsistentGo] at h
    by_cases hav : a ∈ v
    · rw [if_pos hav] at h
      refine ih v h hcl hac n ?_ hcyc
      rcases hn with hn | hn
      · rcases List.mem_cons.mp hn with rfl | hn2
        · exact Or.inr hav
        · exact Or.inl hn2
      · exact Or.inr hn
    · rw [if_neg hav] at h
      cases hdv : dfsVisit (adjOf cs) ((nodesOf cs).length + 1) a v [] with
      | mk b1 v1 =>
        rw [hdv] at h
        cases b1 with
        | true => simp at h
        | false =>
          obtain ⟨hmo, ha1, hcl1, hac1⟩ :=
            dfsVisit_false cs _ a v [] v1 hdv hav (by simp) hcl hac
          refine ih v1 h hcl1 hac1 n ?_ hcyc
          rcases hn with hn | hn
          · rcases List.mem_cons.mp hn with rfl | hn2
            · exact Or.inr ha1
            · exact Or.inl hn2
          · exact Or.inr (hmo n hn)

/-- A consistent verdict really means the constraint graph is acyclic. -/
theorem isConsistent_acyclic (cs : ConstraintSet) (h : isConsistent cs = true) :
    ¬ HasCycle cs := by
  rintro ⟨n, hcyc⟩
  obtain ⟨c, hnc, -⟩ := Relation.TransGen.head'_iff.mp hcyc
  have hn : n ∈ nodesOf cs := (edge_mem_nodesOf cs n c hnc).1
  refine isConsistentGo_acyclic cs (nodesOf cs) [] h ?_ ?_ n (Or.inl hn) hcyc
  · intro b hb
    exact absurd hb.1 (by simp)
  · intro b hb
    exact absurd hb.1 (by simp)

/-! ### Claim C8: a false verdict exhibits a cycle -/

/-- The number of unvisited nodes never exceeds the node count. -/
theorem ucount_le (cs : ConstraintSet) (v : List ℕ) :
    ucount cs v ≤ (nodesOf cs).length :=
  List.length_filter_le _ _

/-- An unvisited graph node keeps the unvisited count positive. -/
theorem ucount_pos (cs : ConstraintSet) (v : List ℕ) (n : ℕ)
    (hn : n ∈ nodesOf cs) (hnv : n ∉ v) : 0 < ucount cs v := by
  have := ucount_cons_lt cs v n hn hnv
  omega

/-- Soundness statement for `dfsVisit`: with fuel at least the unvisited count
a true verdict exhibits a directed cycle. -/
def VisitTrueSpec (cs : ConstraintSet) (f : ℕ) : Prop :=
  ∀ (node : ℕ) (v recStack v2 : List ℕ),
    dfsVisit (adjOf cs) f node v recStack = (true, v2) →
    node ∈ nodesOf cs → node ∉ v → ucount cs v ≤ f →
    (∀ r ∈ recStack, Relation.ReflTransGen (edgeOf cs) r node) →
    HasCycle cs

/-- Soundness statement for the neighbor loop. -/
def NbrsTrueSpec (cs : ConstraintSet) (f : ℕ) : Prop :=
  ∀ (cur : ℕ) (nbrs : List ℕ) (v recStack v2 : List ℕ),
    dfsNbrs (dfsVisit (adjOf cs) f) nbrs v recStack = (true, v2) →
    (∀ m ∈ nbrs, edgeOf cs cur m) →
    (∀ r ∈ recStack, Relation.ReflTransGen (edgeOf cs) r cur) →
    ucount cs v ≤ f →
    HasCycle cs

theorem dfsNbrs_true_of_visit (cs : ConstraintSet) (f : ℕ) (hv : VisitTrueSpec cs f) :
    NbrsTrueSpec cs f := by
  intro cur nbrs
  induction nbrs with
  | nil =>
    intro v recStack v2 h
    rw [dfsNbrs] at h
    simp at h
  | cons m rest ih =>
    intro v recStack v2 h hedges hrecR hfuel
    rw [dfsNbrs] at h
    have hedge : edgeOf cs cur m := hedges m (List.mem_cons_self _ _)
    by_cases hmv : m ∉ v
    · rw [if_pos hmv] at h
      cases hdv : dfsVisit (adjOf cs) f m v recStack with
      | mk b1 v1 =>
        rw [hdv] at h
        cases b1 with
        | true =>
          refine hv m v recStack v1 hdv (edge_mem_nodesOf cs cur m hedge).2 hmv hfuel ?_
          intro r hr
          exact (hrecR r hr).tail hedge
        | false =>
          have hmono : ∀ x ∈ v, x ∈ v1 := dfsVisit_mono (adjOf cs) f m v recStack false v1 hdv
          refine ih v1 recStack v2 h (fun x hx => hedges x (List.mem_cons_of_mem _ hx))
            hrecR ((ucount_mono cs hmono).trans hfuel)
    · rw [if_neg hmv] at h
      by_cases hmr : m ∈ recStack
      · exact ⟨m, Relation.TransGen.tail' (hrecR m hmr) hedge⟩
      · rw [if_neg hmr] at h
        exact ih v recStack v2 h (fun x hx => hedges x (List.mem_cons_of_mem _ hx)) hrecR hfuel

theorem dfsVisit_true (cs : ConstraintSet) : ∀ f, VisitTrueSpec cs f := by
  intro f
  induction f with
  | zero =>
    intro node v recStack v2 _ hnode hnv hfuel _
    have := ucount_cons_lt cs v node hnode hnv
    omega
  | succ f ih =>
    intro node v recStack v2 h hnode hnv hfuel hrecR
    rw [dfsVisit] at h
    refine dfsNbrs_true_of_visit cs f ih node (adjOf cs node) (node :: v) (node :: recStack)
      v2 h (fun m hm => (mem_adjOf cs node m).mp hm) ?_ ?_
    · intro r hr
      rcases List.mem_cons.mp hr with rfl | hr2
      · exact Relation.ReflTransGen.refl
      · exact hrecR r hr2
    · have := ucount_cons_lt cs v node hnode hnv
      omega

/-- Outer-loop soundness: a false verdict of the consistency scan exhibits a
directed cycle. -/
theorem isConsistentGo_false_cycle (cs : ConstraintSet) :
    ∀ (l v : List ℕ),
      isConsistentGo cs l v = false → (∀ n ∈ l, n ∈ nodesOf cs) → HasCycle cs := by
  intro l
  induction l with
  | nil =>
    intro v h _
    rw [isConsistentGo] at h
    simp at h
  | cons a rest ih =>
    intro v h hl
    rw [isConsistentGo] at h
    by_cases hav : a ∈ v
    · rw [if_pos hav] at h
      exact ih v h (fun n hn => hl n (List.mem_cons_of_mem _ hn))
    · rw [if_neg hav] at h
      cases hdv : dfsVisit (adjOf cs) ((nodesOf cs).length + 1) a v [] with
      | mk b1 v1 =>
        rw [hdv] at h
        cases b1 with
        | true =>
          refine dfsVisit_true cs _ a v [] v1 hdv (hl a (List.mem_cons_self _ _)) hav ?_
            (by simp)
          exact (ucount_le cs v).trans (Nat.le_succ _)
        | false =>
          exact ih v1 h (fun n hn => hl n (List.mem_cons_of_mem _ hn))

/-- Every child `PBS._branch` emits carries a constraint set that passed the
consistency check. -/
theorem branchNode_consistent (router : Pipe → List Pipe → Option (List Pt))
    (mm : WithTop ℕ) (node : CTNodeL) (cf : Option Conflict) (child : CTNodeL)
    (h : child ∈ branchNode router mm node cf) :
    isConsistent child.constraints = true := by
  have main : ∀ (l : List (ℕ × ℕ)) (acc : List CTNodeL),
      (∀ x ∈ acc, isConsistent x.constraints = true) →
      ∀ x ∈ l.foldl (branchOrdered router mm node) acc,
        isConsistent x.constraints = true := by
    intro l
    induction l with
    | nil => intro acc hacc x hx; exact hacc x hx
    | cons hl rest ih =>
      intro acc hacc x hx
      rw [List.foldl_cons] at hx
      refine ih (branchOrdered router mm node acc hl) ?_ x hx
      intro y hy
      unfold branchOrdered at hy
      by_cases hcons : isConsistent (⟨hl.1, hl.2⟩ :: node.constraints) = true
      · rw [hcons] at hy
        simp only [Bool.not_true, Bool.false_eq_true, if_false] at hy
        cases hbs : branchStep node.plan hl.2
            (router (getPipe node.plan hl.2)
              (getHigherPriorityPipes node.plan hl.2 (⟨hl.1, hl.2⟩ :: node.constraints))) mm with
        | none => rw [hbs] at hy; exact hacc y hy
        | some childPlan2 =>
          rw [hbs] at hy
          rcases List.mem_append.mp hy with hy2 | hy2
          · exact hacc y hy2
          · simp only [List.mem_singleton] at hy2
            subst hy2
            exact hcons
      · have hcons2 : isConsistent (⟨hl.1, hl.2⟩ :: node.constraints) = false :=
          (Bool.not_eq_true _) ▸ hcons
        rw [hcons2] at hy
        simp only [Bool.not_false, eq_self_iff_true, if_true] at hy
        exact hacc y hy
  cases cf with
  | none => rw [branchNode] at h; simp at h
  | some c =>
    rw [branchNode] at h
    exact main _ [] (by simp) child h

/-- Claim C8: `is_consistent` returns false iff the directed graph
`higher → lower` of the constraint set has a directed cycle; consequently every
constraint set under which PBS creates a child node (cyclic tentative sets are
skipped in `_branch`) is acyclic. -/
theorem C8_theorem :
    (∀ cs : ConstraintSet, isConsistent cs = false ↔ HasCycle cs) ∧
    (∀ (router : Pipe → List Pipe → Option (List Pt)) (mm : WithTop ℕ)
        (node : CTNodeL) (cf : Option Conflict) (child : CTNodeL),
      child ∈ branchNode router mm node cf → ¬ HasCycle child.constraints) := by
  have hiff : ∀ cs : ConstraintSet, isConsistent cs = false ↔ HasCycle cs := by
    intro cs
    constructor
    · intro h
      exact isConsistentGo_false_cycle cs (nodesOf cs) [] h (fun n hn => hn)
    · intro hcyc
      cases hb : isConsistent cs
      · rfl
      · exact absurd hcyc (isConsistent_acyclic cs hb)
  refine ⟨hiff, ?_⟩
  intro router mm node cf child hchild
  exact isConsistent_acyclic child.constraints
    (branchNode_consistent router mm node cf child hchild)

/-- C8 witness: a concrete two-constraint cycle is reported inconsistent and a
concrete branch child carries an acyclic constraint set. -/
theorem C8_witness :
    HasCycle ([⟨0, 1⟩, ⟨1, 0⟩] : ConstraintSet) ∧
    ¬ HasCycle ((⟨planSetPath planC2 2 none, [⟨1, 2⟩], 1⟩ : CTNodeL)).constraints :=
  ⟨(C8_theorem.1 [⟨0, 1⟩, ⟨1, 0⟩]).mp (by decide),
   C8_theorem.2 (fun _ _ => none) 1 ⟨planC2, [], 0⟩ (some ⟨1, 2⟩)
     ⟨planSetPath planC2 2 none, [⟨1, 2⟩], 1⟩ (by decide)⟩

end PipeRouting
